import Mathlib

/-!
Verification development for the TSP solver repository (src/algorithms.py).

The algorithm module is embedded shallowly:

* City-pair distances.  The repository's `distance` function lives in the
  external `city` module (not part of the core sources); per the spec it is
  the Euclidean norm between the coordinates of two city labels.  We model
  the instance by its induced label-pair distance function
  `d : ℕ → ℕ → α` (1-based labels) into a linearly ordered additive
  commutative group `α`; the algorithms only add and compare distances, so
  this covers in particular `α = ℝ` with true Euclidean distances.
  Concrete counterexample instances use collinear cities `(x, 0)` with
  integer `x`, for which the Euclidean distance `|x_i - x_j|` is exactly
  representable in `α = ℤ` (see `lineDist`).
* The `dist_matrix` argument of the local searches is a 0-based matrix,
  modelled as a function `M : ℕ → ℕ → α` with `M (i-1) (j-1)` the entry
  the Python code reads; `matFromDist` is the matrix consistent with an
  instance (the one `fuzzopt` builds).
* Python lists are Lean lists; Python slices `l[a:b]` and the
  negative-step slices `l[a:b:-1]` used by `three_opt` are `pySlice` and
  `pySliceRev` (with Python's clamping semantics).
* `heapq` heaps are modelled extensionally as lists from which the
  lexicographically least triple is removed, which is exactly the
  observable behaviour of `heappush`/`heappop` (all pushed triples are
  distinct).
* Code that can raise (`min` of an empty sequence in `held_karp` and in
  the Christofides matching loop, `randint(1, 0)` in `fuzzopt`,
  out-of-range indexing in `three_opt`) is embedded with `Option` /
  explicit `crash` results.
* The unbounded `while improved:` loops are embedded with an explicit
  fuel parameter; `three_opt` genuinely need not terminate (see the C7
  theorem), while for `two_opt` a sufficient fuel is supplied and
  termination is proved as a fixpoint theorem.
* For the 2-approximation claim (C8), Prim's loop is characterized by the
  inductive `PrimSteps` cut-minimality relation, the built adjacency by an
  ordered rose tree (`RTree`/`RForest` with the `ReprT` correspondence),
  and minimality of the tree weight is proved by an exchange argument
  over spanning connected edge lists (`Conn`, `SpanConn`,
  `prim_exchange`).
-/

namespace TSPSpec

variable {α : Type} [LinearOrderedAddCommGroup α]

/-- Absolute value, written with `if` so that it evaluates by kernel
reduction at concrete types such as `ℤ`. -/
def oAbs (q : α) : α :=
  if q < 0 then -q else q

/-- Distance function of a collinear instance: city `k` sits at
`(xs[k-1], 0)`, so the Euclidean distance between labels `i` and `j` is
`|xs[i-1] - xs[j-1]|`. -/
def lineDist (xs : List α) (i j : ℕ) : α :=
  oAbs (xs.getD (i - 1) 0 - xs.getD (j - 1) 0)

/-- Matrix consistent with the instance `d`: entry `(a, b)` (0-based) is the
distance between labels `a+1` and `b+1`.  This is the matrix `fuzzopt`
precomputes and hands to the local searches. -/
def matFromDist (d : ℕ → ℕ → α) : ℕ → ℕ → α :=
  fun a b => d (a + 1) (b + 1)

/-- Embedding of `path_length`: sum of `d` over consecutive pairs of the
tour (the closing edge is part of the list, as in the code). -/
def path_length (d : ℕ → ℕ → α) : List ℕ → α
  | u :: v :: rest => d u v + path_length d (v :: rest)
  | _ => 0

/-- Python slice `l[a:b]` (step 1, non-negative bounds, clamping). -/
def pySlice (l : List ℕ) (a b : ℕ) : List ℕ :=
  (l.drop a).take (b - a)

/-- Python slice `l[a:b:-1]` (step -1, non-negative bounds): the elements at
indices `b+1, …, a` in reverse order; empty when `a ≤ b`. -/
def pySliceRev (l : List ℕ) (a b : ℕ) : List ℕ :=
  if b < a then ((l.drop (b + 1)).take (a - b)).reverse else []

/-- Python `min` over a list of distance values: `none` models the `ValueError`
raised on an empty sequence. -/
def listMin : List α → Option α
  | [] => none
  | x :: xs => some (xs.foldl (fun m y => if y < m then y else m) x)

/-- Python `range(a, b)` as a list. -/
def pyRange (a b : ℕ) : List ℕ :=
  List.range' a (b - a)

/-- Tour validity invariant from the spec: `n+1` entries, first and last
entry `1`, and the first `n` entries a permutation of `1..n`. -/
def ValidTour (n : ℕ) (tour : List ℕ) : Prop :=
  tour.length = n + 1 ∧ tour.head? = some 1 ∧ tour.getLast? = some 1 ∧
    (tour.take n).Perm (List.range' 1 n)

instance (n : ℕ) (tour : List ℕ) : Decidable (ValidTour n tour) := by
  unfold ValidTour; infer_instance

/-! ### 2-opt local search (`two_opt`)

The Python loop state is `(best_tour, best_length, improved)`; one sweep
scans all pairs `(i, j)` with `1 ≤ i`, `i + 2 ≤ j ≤ n - 1` in order
(there is no `break`: the sweep continues after an accepted move), and the
scanned tour `tour` is never reassigned inside the function. -/

/-- State of the `two_opt` sweep: `best_tour`, `best_length`, `improved`. -/
structure TwoState (α : Type) where
  best_tour : List ℕ
  best_length : α
  improved : Bool
  deriving DecidableEq

/-- Index pairs `(i, j)` scanned by one `two_opt` sweep:
`i ∈ range(1, n-2)`, `j ∈ range(i+2, n)`, in loop order. -/
def pairs2 (n : ℕ) : List (ℕ × ℕ) :=
  (pyRange 1 (n - 2)).flatMap fun i =>
    (pyRange (i + 2) n).map fun j => (i, j)

/-- Body of the `two_opt` double loop at one pair `(i, j)`. -/
def two_opt_visit (d M : ℕ → ℕ → α) (tour : List ℕ) (st : TwoState α)
    (p : ℕ × ℕ) : TwoState α :=
  let i := p.1
  let j := p.2
  let old_dist := M (tour.getD (i - 1) 0 - 1) (tour.getD i 0 - 1) +
    M (tour.getD j 0 - 1) (tour.getD (j + 1) 0 - 1)
  let new_dist := M (tour.getD (i - 1) 0 - 1) (tour.getD j 0 - 1) +
    M (tour.getD i 0 - 1) (tour.getD (j + 1) 0 - 1)
  if new_dist < old_dist then
    let new_tour := tour.take i ++ (pySlice tour i (j + 1)).reverse ++ tour.drop (j + 1)
    let new_length := path_length d new_tour
    if new_length < st.best_length then ⟨new_tour, new_length, true⟩ else st
  else st

/-- One full sweep of the `two_opt` double loop. -/
def two_opt_sweep (d M : ℕ → ℕ → α) (n : ℕ) (tour : List ℕ)
    (st : TwoState α) : TwoState α :=
  (pairs2 n).foldl (two_opt_visit d M tour) st

/-- The `while improved:` loop of `two_opt`, with fuel.  As in the code,
`improved` is reset at the top of each sweep and the scanned `tour` is
the function argument throughout. -/
def two_opt_loop (d M : ℕ → ℕ → α) (n : ℕ) (tour : List ℕ) :
    ℕ → TwoState α → TwoState α
  | 0, st => st
  | fuel + 1, st =>
    let st' := two_opt_sweep d M n tour { st with improved := false }
    if st'.improved then two_opt_loop d M n tour fuel st' else st'

/-- Fuel sufficient for `two_opt_loop`: each improving sweep strictly
decreases `best_length` within a candidate set of at most
`(pairs2 n).length + 1` values. -/
def two_opt_fuel (n : ℕ) : ℕ :=
  (pairs2 n).length + 2

/-- Embedding of `two_opt`: returns `(best_tour, best_length)`. -/
def two_opt (d M : ℕ → ℕ → α) (tour : List ℕ) : List ℕ × α :=
  let n := tour.length - 1
  let st := two_opt_loop d M n tour (two_opt_fuel n)
    ⟨tour, path_length d tour, true⟩
  (st.best_tour, st.best_length)

/-! ### 3-opt local search (`three_opt`)

Faithful embedding, including the slice arithmetic of the four
reconnection cases exactly as written in the code (`tour[j-1:k-1:-1]` in
case 1 is an empty slice since `j < k`, and case 4 reads
`tour[k-1:j-1:-1] + tour[j:i:-1]`).  Indexing `tour[x]` out of range
raises in Python; this is the `crash` result. -/

/-- Result of scanning for one improving 3-opt move. -/
inductive SweepRes (α : Type) where
  | crash : SweepRes α
  | noMove : SweepRes α
  | found : List ℕ → α → SweepRes α
  deriving DecidableEq

/-- Result of the full `three_opt` loop. -/
inductive LoopRes (α : Type) where
  | done : α → List ℕ → LoopRes α
  | crash : LoopRes α
  | fuelOut : LoopRes α
  deriving DecidableEq

/-- Index triples `(i, j, k)` scanned by one `three_opt` sweep:
`i ∈ range(1, n-4)`, `j ∈ range(i+2, n-2)`, `k ∈ range(j+2, n)`. -/
def triples3 (n : ℕ) : List (ℕ × ℕ × ℕ) :=
  (pyRange 1 (n - 4)).flatMap fun i =>
    (pyRange (i + 2) (n - 2)).flatMap fun j =>
      (pyRange (j + 2) n).map fun k => (i, j, k)

/-- Body of the `three_opt` triple loop at `(i, j, k)`: reads the six
vertices (crashing on an out-of-range index, as Python does) and tries
the four reconnection cases in order, returning the first accepted move. -/
def three_opt_move (d M : ℕ → ℕ → α) (tour : List ℕ) (i j k : ℕ) : SweepRes α :=
  match tour[i - 1]?, tour[i]?, tour[j - 1]?, tour[j]?, tour[k - 1]?, tour[k]? with
  | some a, some b, some c, some c', some e, some f =>
    let orig_dist := M (a - 1) (b - 1) + M (c - 1) (c' - 1) + M (e - 1) (f - 1)
    let new_dist1 := M (a - 1) (c' - 1) + M (e - 1) (b - 1) + M (c - 1) (f - 1)
    if new_dist1 < orig_dist then
      let new_tour := tour.take i ++ pySliceRev tour (j - 1) (k - 1) ++
        pySlice tour i j ++ tour.drop k
      .found new_tour (path_length d new_tour)
    else
      let new_dist2 := M (a - 1) (b - 1) + M (e - 1) (c' - 1) + M (c - 1) (f - 1)
      if new_dist2 < orig_dist then
        let new_tour := tour.take i ++ pySlice tour j k ++
          pySlice tour i j ++ tour.drop k
        .found new_tour (path_length d new_tour)
      else
        let new_dist3 := M (a - 1) (c' - 1) + M (c - 1) (b - 1) + M (e - 1) (f - 1)
        if new_dist3 < orig_dist then
          let new_tour := tour.take i ++ pySliceRev tour (j - 1) (i - 1) ++
            pySliceRev tour (k - 1) (j - 1) ++ tour.drop k
          .found new_tour (path_length d new_tour)
        else
          let new_dist4 := M (a - 1) (f - 1) + M (c - 1) (c' - 1) + M (e - 1) (b - 1)
          if new_dist4 < orig_dist then
            let new_tour := tour.take i ++ pySliceRev tour (k - 1) (j - 1) ++
              pySliceRev tour j i ++ tour.drop k
            .found new_tour (path_length d new_tour)
          else .noMove
  | _, _, _, _, _, _ => .crash

/-- One sweep of the `three_opt` triple loop: first accepted move wins
(the code breaks out of all three loops). -/
def three_opt_sweep_go (d M : ℕ → ℕ → α) (tour : List ℕ) :
    List (ℕ × ℕ × ℕ) → SweepRes α
  | [] => .noMove
  | t :: rest =>
    match three_opt_move d M tour t.1 t.2.1 t.2.2 with
    | .noMove => three_opt_sweep_go d M tour rest
    | r => r

/-- One sweep of `three_opt` over all triples of `triples3 n`. -/
def three_opt_sweep (d M : ℕ → ℕ → α) (n : ℕ) (tour : List ℕ) : SweepRes α :=
  three_opt_sweep_go d M tour (triples3 n)

/-- The `while improved:` loop of `three_opt`, with fuel.  After an
accepted move the code sets `tour = best_tour[:]` and
`best_length = path_length(tsp, best_tour)`, so the loop state is the
current tour and its length; `n` is fixed from the input tour. -/
def three_opt_loop (d M : ℕ → ℕ → α) (n : ℕ) :
    ℕ → List ℕ → α → LoopRes α
  | 0, _, _ => .fuelOut
  | fuel + 1, tour, len =>
    match three_opt_sweep d M n tour with
    | .crash => .crash
    | .noMove => .done len tour
    | .found t l => three_opt_loop d M n fuel t l

/-- Embedding of `three_opt` with explicit fuel for the outer loop. -/
def three_opt (d M : ℕ → ℕ → α) (tour : List ℕ) (fuel : ℕ) : LoopRes α :=
  three_opt_loop d M (tour.length - 1) fuel tour (path_length d tour)

/-! ### Held–Karp exact DP (`held_karp`)

The Python code fills a dict `dp[(mask, j)]` bottom-up over subsets of
`{2..n}` by increasing size; entry `(S, j)` (for `j ∈ S`) is exactly the
value of the recurrence below, embedded here with a structural fuel equal
to `S.card` so that it evaluates by kernel reduction.  The returned tour
is the placeholder `[1] + list(range(2, n+1)) + [1]`; for `n = 1` the
final `min` ranges over an empty sequence and raises (`none`). -/

/-- Held–Karp recurrence with fuel: `dpF d fuel S j` is the dict entry
`dp[(mask S, j)]` once `S.length ≤ fuel` and `j ∈ S`, where the subset
encoded by the bitmask is represented by the duplicate-free list `S` of
its elements (base case `S = [j]`). -/
def dpF (d : ℕ → ℕ → α) : ℕ → List ℕ → ℕ → α
  | 0, _, j => d 1 j
  | fuel + 1, S, j =>
    let S' := S.erase j
    match listMin (S'.map fun k => dpF d fuel S' k + d k j) with
    | some m => m
    | none => d 1 j

/-- Dict entry `dp[(mask S, j)]` of the Held–Karp table. -/
def hk_dp (d : ℕ → ℕ → α) (S : List ℕ) (j : ℕ) : α :=
  dpF d S.length S j

/-- Interior city labels `[2, …, n]` (Python `range(2, n+1)`). -/
def interior (n : ℕ) : List ℕ :=
  pyRange 2 (n + 1)

/-- Embedding of `held_karp`: the optimal cost together with the dummy
tour `[1, 2, …, n, 1]`; `none` models the `ValueError` from `min` over
an empty sequence when `n < 2`. -/
def held_karp (n : ℕ) (d : ℕ → ℕ → α) : Option (α × List ℕ) :=
  match listMin ((interior n).map fun j =>
      hk_dp d (interior n) j + d j 1) with
  | none => none
  | some c => some (c, 1 :: (interior n ++ [1]))

/-- Brute-force optimum, written from the spec's words: the minimum, over
all closed tours that start and end at city 1 and visit every city
exactly once, of the tour's length.  Closed tours are enumerated as
permutations of the interior labels. -/
def bruteForce (n : ℕ) (d : ℕ → ℕ → α) : Option α :=
  listMin ((interior n).permutations'.map fun l =>
    path_length d (1 :: (l ++ [1])))

/-! ### Prim's MST and the preorder walk (`approx_tsp_tour`)

The adjacency structure is a `defaultdict(list)`: a total map to lists
plus the ordered list of keys that have been touched (`items()` order).
The heap is a list of `(weight, u, v)` triples from which `heappop`
removes the lexicographically least one. -/

/-- Adjacency model of `defaultdict(list)`: touched keys in insertion
order, and the underlying total function. -/
structure Adj where
  keys : List ℕ
  val : ℕ → List ℕ

/-- Empty adjacency mapping. -/
def Adj.empty : Adj :=
  ⟨[], fun _ => []⟩

/-- Access `adj[u]` for writing: touching a missing key inserts it. -/
def Adj.touch (a : Adj) (u : ℕ) : Adj :=
  if a.keys.contains u then a else ⟨a.keys ++ [u], a.val⟩

/-- Embedding of `adj[u].append(x)`. -/
def Adj.append (a : Adj) (u x : ℕ) : Adj :=
  let a' := a.touch u
  ⟨a'.keys, fun w => if w = u then a'.val u ++ [x] else a'.val w⟩

/-- Embedding of `adj[u] = l` (used by the Eulerian traversal, which
destructively pops and removes entries). -/
def Adj.setVal (a : Adj) (u : ℕ) (l : List ℕ) : Adj :=
  let a' := a.touch u
  ⟨a'.keys, fun w => if w = u then l else a'.val w⟩

/-- Embedding of the pair `adj[u].append(v); adj[v].append(u)`. -/
def Adj.addEdge (a : Adj) (u v : ℕ) : Adj :=
  (a.append u v).append v u

/-- Lexicographic strict order on heap triples, as `heapq` compares
`(weight, u, v)` tuples. -/
def tripLt (x y : α × ℕ × ℕ) : Bool :=
  x.1 < y.1 ∨ (x.1 = y.1 ∧ (x.2.1 < y.2.1 ∨ (x.2.1 = y.2.1 ∧ x.2.2 < y.2.2)))

/-- Least triple of the heap (`heappop` result), `none` on an empty heap. -/
def heapMin : List (α × ℕ × ℕ) → Option (α × ℕ × ℕ)
  | [] => none
  | x :: xs => some (xs.foldl (fun m y => if tripLt y m then y else m) x)

/-- State of Prim's loop: the visited set (insertion order), the MST
adjacency built so far, and the heap. -/
structure PrimState (α : Type) where
  visited : List ℕ
  adj : Adj
  heap : List (α × ℕ × ℕ)

/-- Prim's `while heap and len(visited) < n` loop: pop the least edge,
skip it if its head is already visited, otherwise accept it and push the
edges from the new vertex to all unvisited vertices (in label order). -/
def prim_loop (d : ℕ → ℕ → α) (n : ℕ) : ℕ → PrimState α → PrimState α
  | 0, st => st
  | fuel + 1, st =>
    if st.visited.length < n then
      match heapMin st.heap with
      | none => st
      | some e =>
        let heap' := st.heap.erase e
        let v := e.2.2
        if st.visited.contains v then
          prim_loop d n fuel ⟨st.visited, st.adj, heap'⟩
        else
          let visited' := st.visited ++ [v]
          let pushes := ((pyRange 1 (n + 1)).filter
            (fun w => ¬ visited'.contains w)).map fun w => (d v w, v, w)
          prim_loop d n fuel ⟨visited', st.adj.addEdge e.2.1 v, heap' ++ pushes⟩
    else st

/-- Fuel bound for `prim_loop`: every iteration pops one heap element and
at most `n*n + n` elements are ever pushed. -/
def prim_fuel (n : ℕ) : ℕ :=
  n * n + n + 1

/-- MST adjacency built by Prim's algorithm rooted at city 1 (shared
verbatim by `approx_tsp_tour` and `christofides`). -/
def prim (d : ℕ → ℕ → α) (n : ℕ) : Adj :=
  let initHeap := (pyRange 2 (n + 1)).map fun v => (d 1 v, 1, v)
  (prim_loop d n (prim_fuel n) ⟨[1], Adj.empty, initHeap⟩).adj

/-- Recursive preorder DFS of the MST with a parent check (`parent = 0`
models Python's `None`; city labels start at 1). -/
def dfs (adj : Adj) : ℕ → ℕ → ℕ → List ℕ
  | 0, _, _ => []
  | fuel + 1, u, parent =>
    u :: ((adj.val u).filter (fun w => w ≠ parent)).flatMap
      fun w => dfs adj fuel w u

/-- Embedding of `approx_tsp_tour`: preorder walk of the MST closed back
to the root, and its length. -/
def approx_tsp_tour (n : ℕ) (d : ℕ → ℕ → α) : α × List ℕ :=
  let adj := prim d n
  let preorder := dfs adj (n + 1) 1 0
  let tour := preorder ++ [1]
  (path_length d tour, tour)

/-! ### Christofides-style heuristic (`christofides`)

The odd-degree vertex list follows `adj.items()` order; the greedy
matching iterates over `set(odd)`, which for these small `int` keys is
ascending value order in CPython, so the unmatched pool is modelled as a
sorted list with `set.pop()` taking its head.  `min(unmatched, key=…)`
returns the first minimiser in iteration order, i.e. the smallest label
among those at minimal distance. -/

/-- Vertices of odd degree in the MST, in `adj.items()` order. -/
def oddVerts (a : Adj) : List ℕ :=
  a.keys.filter fun v => (a.val v).length % 2 = 1

/-- Insertion of an element into a sorted list (ascending). -/
def insertSorted (x : ℕ) : List ℕ → List ℕ
  | [] => [x]
  | y :: ys => if x ≤ y then x :: y :: ys else y :: insertSorted x ys

/-- Insertion sort, used to model iteration over a CPython `set` of small
ints (which iterates in ascending value order). -/
def sortNat (l : List ℕ) : List ℕ :=
  l.foldr insertSorted []

/-- First minimiser of `fun x => d u x` in a list (Python
`min(xs, key=…)`). -/
def argminD (f : ℕ → α) : List ℕ → Option ℕ
  | [] => none
  | x :: xs => some (xs.foldl (fun m y => if f y < f m then y else m) x)

/-- Greedy matching loop of `christofides`, with structural fuel (the
loop consumes two vertices per iteration, so fuel equal to the pool size
never runs out): repeatedly pop the least unmatched vertex `u`, pair it
with its nearest still-unmatched vertex `v`, and add the matching edge to
the multigraph.  `none` models the `ValueError` from `min` over an empty
set (odd pool of odd size). -/
def greedy_matching_go (d : ℕ → ℕ → α) :
    ℕ → List ℕ → Adj → Option (Adj × List (ℕ × ℕ))
  | _, [], adj => some (adj, [])
  | _, [_], _ => none
  | 0, _ :: _ :: _, _ => none
  | fuel + 1, u :: v0 :: rest, adj =>
    match argminD (d u) (v0 :: rest) with
    | none => none
    | some v =>
      match greedy_matching_go d fuel ((v0 :: rest).erase v) (adj.addEdge u v) with
      | none => none
      | some (adj', m) => some (adj', (u, v) :: m)

/-- Greedy matching loop of `christofides` on the unmatched pool. -/
def greedy_matching (d : ℕ → ℕ → α) (l : List ℕ) (adj : Adj) :
    Option (Adj × List (ℕ × ℕ)) :=
  greedy_matching_go d l.length l adj

/-- One step-bounded run of Hierholzer's stack loop: the stack top is the
list head; if it still has incident edges, consume the last one
(`adj[u].pop()` plus `adj[v].remove(u)`), otherwise pop it onto the
circuit. -/
def euler_loop : ℕ → Adj → List ℕ → List ℕ → List ℕ
  | 0, _, _, circuit => circuit
  | fuel + 1, adj, stack, circuit =>
    match stack with
    | [] => circuit
    | u :: srest =>
      match (adj.val u).getLast? with
      | none => euler_loop fuel adj srest (circuit ++ [u])
      | some v =>
        let adj1 := adj.setVal u (adj.val u).dropLast
        let adj2 := adj1.setVal v ((adj1.val v).erase u)
        euler_loop fuel adj2 (v :: u :: srest) circuit

/-- Fuel bound for `euler_loop` inside `christofides`: the multigraph has
at most `2*n` edges, each contributing two stack pushes. -/
def euler_fuel (n : ℕ) : ℕ :=
  8 * n + 8

/-- Embedding of `eulerian_tour(adj, start=1)`: the popped sequence,
reversed. -/
def eulerian_tour (n : ℕ) (adj : Adj) : List ℕ :=
  (euler_loop (euler_fuel n) adj [1] []).reverse

/-- Shortcut pass: keep the first occurrence of every vertex of the
circuit (`seen` set). -/
def shortcut : List ℕ → List ℕ → List ℕ
  | [], _ => []
  | v :: rest, seen =>
    if seen.contains v then shortcut rest seen
    else v :: shortcut rest (v :: seen)

/-- Embedding of `christofides`: MST, greedy matching on the odd-degree
vertices, Eulerian circuit, shortcut, close at 1.  `none` models the
matching loop's `ValueError`. -/
def christofides (n : ℕ) (d : ℕ → ℕ → α) : Option (α × List ℕ) :=
  let adj := prim d n
  let odd := sortNat (oddVerts adj)
  match greedy_matching d odd adj with
  | none => none
  | some (adj2, _) =>
    let circuit := eulerian_tour n adj2
    let tour := shortcut circuit [] ++ [1]
    some (path_length d tour, tour)

/-! ### FuzzOpt (`fuzzopt`)

Randomness is made explicit: `shuf` is the shuffled interior produced by
`np.random.permutation(range(2, n+1))` and `draws it` the pair returned
by the two `randint(1, n-1)` calls of iteration `it` (the code redraws
`v` until `u ≠ v`).  For `n ≤ 1` the very first `randint(1, n-1)` call
raises `ValueError` (empty range), modelled as `none`; the iteration
count is `max_iterations or n`, so a passed value of `0` falls back to
`n` and at least one iteration always runs. -/

/-- Simultaneous swap `x[u], x[v] = x[v], x[u]` on a list. -/
def listSwap (l : List ℕ) (u v : ℕ) : List ℕ :=
  (l.set u (l.getD v 0)).set v (l.getD u 0)

/-- Local-search pass used inside `fuzzopt`: `two_opt` or `three_opt`
according to the flag; a `three_opt` crash propagates as `none`. -/
def local_pass (d M : ℕ → ℕ → α) (useThree : Bool) (threeFuel : ℕ)
    (xn : List ℕ) : Option (List ℕ × α) :=
  if useThree then
    match three_opt d M xn threeFuel with
    | .done l t => some (t, l)
    | _ => none
  else some (two_opt d M xn)

/-- Iteration loop of `fuzzopt`: perturb the incumbent by one interior
swap, run the chosen local search, and accept on strict improvement. -/
def fuzz_loop (d M : ℕ → ℕ → α) (useThree : Bool) (threeFuel : ℕ)
    (draws : ℕ → ℕ × ℕ) : ℕ → ℕ → α × List ℕ → Option (α × List ℕ)
  | 0, _, st => some st
  | m + 1, it, st =>
    match local_pass d M useThree threeFuel
        (listSwap st.2 (draws it).1 (draws it).2) with
    | none => none
    | some (xn', fn) =>
      fuzz_loop d M useThree threeFuel draws m (it + 1)
        (if fn < st.1 then (fn, xn') else st)

/-- Embedding of `fuzzopt`: builds the distance matrix from the instance,
starts from the random tour `[1] + shuf + [1]`, and iterates
`max_iterations or n` times. -/
def fuzzopt (n : ℕ) (d : ℕ → ℕ → α) (shuf : List ℕ) (draws : ℕ → ℕ × ℕ)
    (useThree : Bool) (maxIter : Option ℕ) (threeFuel : ℕ) :
    Option (α × List ℕ) :=
  let M := matFromDist d
  let x := 1 :: (shuf ++ [1])
  let iters := match maxIter with
    | none => n
    | some 0 => n
    | some m => m
  if n ≤ 1 then none
  else fuzz_loop d M useThree threeFuel draws iters 0 (path_length d x, x)

/-! ### Concrete counterexample instances

All are collinear Euclidean instances (cities at `(x, 0)`); the list
entry at position `k-1` is the x-coordinate of city `k`. -/

/-- Instance on which an accepted `three_opt` case-4 move destroys the
permutation invariant (the slice `tour[j:i:-1]` duplicates `tour[j]` and
drops `tour[i]`). -/
def xsBad : List ℤ := [12, 0, 3, 12, 17, 16]

/-- Instance on which `three_opt` terminates with a longer tour than its
input (the case-2 acceptance test compares edge sets that do not match
the reassembled tour). -/
def xsInc : List ℤ := [1, 16, 8, 17, 6, 1]

/-- Instance on which `two_opt` returns a tour that still admits an
improving segment reversal (the code never copies `best_tour` back into
`tour`). -/
def xsLoc : List ℤ := [13, 5, 5, 7, 7, 0]

/-- Instance on which `three_opt` reaches a tour whose first accepted
move reproduces the same tour, so the `while improved:` loop never
exits. -/
def xsCyc : List ℤ := [18, 2, 8, 3, 15, 14]

/-- Four collinear cities at x-coordinates 0, 2, 1, 3: the Held–Karp
optimal cost is 6, but the placeholder tour `[1, 2, 3, 4, 1]` has
length 8. -/
def xsHK : List ℤ := [0, 2, 1, 3]

/-! ### Basic lemmas about `listMin` and `path_length` -/

/-- Helper for `listMin`: the fold never exceeds its initial value. -/
theorem foldlMin_le_init (x : α) (xs : List α) :
    xs.foldl (fun m y => if y < m then y else m) x ≤ x := by
  induction xs generalizing x with
  | nil => exact le_refl x
  | cons y ys ih =>
    have h1 : (y :: ys).foldl (fun m y => if y < m then y else m) x
        = ys.foldl (fun m y => if y < m then y else m) (if y < x then y else x) := rfl
    rw [h1]
    refine le_trans (ih _) ?_
    by_cases h : y < x
    · rw [if_pos h]; exact le_of_lt h
    · rw [if_neg h]

/-- Helper for `listMin`: the fold is a lower bound of the list. -/
theorem foldlMin_le_mem (x : α) (xs : List α) (y : α) (hy : y ∈ xs) :
    xs.foldl (fun m y => if y < m then y else m) x ≤ y := by
  induction xs generalizing x with
  | nil => cases hy
  | cons z zs ih =>
    have h1 : (z :: zs).foldl (fun m y => if y < m then y else m) x
        = zs.foldl (fun m y => if y < m then y else m) (if z < x then z else x) := rfl
    rw [h1]
    rcases List.mem_cons.1 hy with rfl | hz
    · refine le_trans (foldlMin_le_init _ _) ?_
      by_cases h : y < x
      · rw [if_pos h]
      · rw [if_neg h]; exact le_of_not_lt h
    · exact ih _ hz

/-- Helper for `listMin`: the fold result is the initial value or a list
member. -/
theorem foldlMin_mem (x : α) (xs : List α) :
    xs.foldl (fun m y => if y < m then y else m) x = x ∨
      xs.foldl (fun m y => if y < m then y else m) x ∈ xs := by
  induction xs generalizing x with
  | nil => exact Or.inl rfl
  | cons y ys ih =>
    have h1 : (y :: ys).foldl (fun m y => if y < m then y else m) x
        = ys.foldl (fun m y => if y < m then y else m) (if y < x then y else x) := rfl
    rw [h1]
    rcases ih (if y < x then y else x) with h | h
    · rw [h]
      by_cases hxy : y < x
      · rw [if_pos hxy]
        exact Or.inr (List.mem_cons_self y ys)
      · rw [if_neg hxy]
        exact Or.inl rfl
    · exact Or.inr (List.mem_cons_of_mem y h)

/-- The value of `listMin` is a lower bound of the list. -/
theorem listMin_le {l : List α} {m x : α} (hm : listMin l = some m)
    (hx : x ∈ l) : m ≤ x := by
  cases l with
  | nil => cases hm
  | cons a as =>
    cases hm
    rcases List.mem_cons.1 hx with rfl | hxs
    · exact foldlMin_le_init _ _
    · exact foldlMin_le_mem _ _ _ hxs

/-- The value of `listMin` is a member of the list. -/
theorem listMin_mem {l : List α} {m : α} (hm : listMin l = some m) :
    m ∈ l := by
  cases l with
  | nil => cases hm
  | cons a as =>
    cases hm
    rcases foldlMin_mem a as with h | h
    · rw [h]; exact List.mem_cons_self a as
    · exact List.mem_cons_of_mem a h

/-- `listMin` yields a value exactly on nonempty lists. -/
theorem listMin_isSome {l : List α} (h : l ≠ []) :
    ∃ m, listMin l = some m := by
  cases l with
  | nil => exact absurd rfl h
  | cons a as => exact ⟨_, rfl⟩

/-- Splitting the final edge off a closed walk: appending `j` to a walk
whose last vertex is `k` adds the edge `(k, j)`. -/
theorem path_length_append_last (d : ℕ → ℕ → α) :
    ∀ (l : List ℕ) (k j : ℕ), l.getLast? = some k →
      path_length d (l ++ [j]) = path_length d l + d k j
  | [], k, j, h => by cases h
  | [a], k, j, h => by
    cases List.getLast?_singleton a ▸ h
    simp [path_length, zero_add, add_zero]
  | a :: b :: t, k, j, h => by
    have ht : (b :: t).getLast? = some k := by
      rwa [List.getLast?_cons_cons] at h
    have ih := path_length_append_last d (b :: t) k j ht
    show path_length d (a :: b :: (t ++ [j])) = _
    have hcons : path_length d (a :: b :: (t ++ [j])) =
        d a b + path_length d (b :: (t ++ [j])) := rfl
    have : path_length d (b :: (t ++ [j])) = path_length d ((b :: t) ++ [j]) := rfl
    rw [hcons, this, ih, path_length, ← add_assoc]

/-- Prepending a starting vertex does not change the last vertex of a
nonempty walk. -/
theorem getLast?_cons_of_ne_nil {a : ℕ} {l : List ℕ} (h : l ≠ []) :
    (a :: l).getLast? = l.getLast? := by
  cases l with
  | nil => exact absurd rfl h
  | cons b t => exact List.getLast?_cons_cons

/-! ### Monotonicity of `two_opt` (the universal half of claim C4) -/

/-- One visit of the `two_opt` sweep never increases `best_length`. -/
theorem two_opt_visit_le (d M : ℕ → ℕ → α) (tour : List ℕ)
    (st : TwoState α) (p : ℕ × ℕ) :
    (two_opt_visit d M tour st p).best_length ≤ st.best_length := by
  unfold two_opt_visit
  by_cases h1 : M (tour.getD (p.1 - 1) 0 - 1) (tour.getD p.2 0 - 1) +
      M (tour.getD p.1 0 - 1) (tour.getD (p.2 + 1) 0 - 1) <
      M (tour.getD (p.1 - 1) 0 - 1) (tour.getD p.1 0 - 1) +
      M (tour.getD p.2 0 - 1) (tour.getD (p.2 + 1) 0 - 1)
  · simp only [h1, if_true]
    by_cases h2 : path_length d (tour.take p.1 ++
        (pySlice tour p.1 (p.2 + 1)).reverse ++ tour.drop (p.2 + 1)) < st.best_length
    · simp only [h2, if_true]
      exact le_of_lt h2
    · simp only [h2, if_false]
      exact le_refl _
  · simp only [h1, if_false]
    exact le_refl _

/-- A full `two_opt` sweep never increases `best_length`. -/
theorem two_opt_sweep_le (d M : ℕ → ℕ → α) (n : ℕ) (tour : List ℕ)
    (st : TwoState α) :
    (two_opt_sweep d M n tour st).best_length ≤ st.best_length := by
  unfold two_opt_sweep
  generalize pairs2 n = ps
  induction ps generalizing st with
  | nil => exact le_refl _
  | cons p ps ih =>
    exact le_trans (ih (two_opt_visit d M tour st p)) (two_opt_visit_le d M tour st p)

/-- The `two_opt` loop never increases `best_length`. -/
theorem two_opt_loop_le (d M : ℕ → ℕ → α) (n : ℕ) (tour : List ℕ) :
    ∀ (fuel : ℕ) (st : TwoState α),
      (two_opt_loop d M n tour fuel st).best_length ≤ st.best_length
  | 0, st => le_refl _
  | fuel + 1, st => by
    show (let st' := two_opt_sweep d M n tour { st with improved := false }
      if st'.improved then two_opt_loop d M n tour fuel st' else st').best_length ≤ _
    by_cases h : (two_opt_sweep d M n tour { st with improved := false }).improved
    · simp only [h, if_true]
      exact le_trans (two_opt_loop_le d M n tour fuel _)
        (two_opt_sweep_le d M n tour _)
    · simp only [h, if_false]
      exact two_opt_sweep_le d M n tour _

/-- Monotonicity of `two_opt`: the returned length never exceeds the
input tour's length, for any tour and any matrix. -/
theorem two_opt_le (d M : ℕ → ℕ → α) (tour : List ℕ) :
    (two_opt d M tour).2 ≤ path_length d tour :=
  two_opt_loop_le d M (tour.length - 1) tour (two_opt_fuel (tour.length - 1))
    ⟨tour, path_length d tour, true⟩


/-! ### Claim theorems: the counterexample-based claims -/

/-- Claim C1: every solver that returns yields a valid closed permutation
tour, and `two_opt`/`three_opt` preserve validity after every accepted
move.  Refuted on the code: on the collinear instance `xsBad`, starting
from a valid tour, `three_opt` accepts a case-4 move whose slice
arithmetic duplicates one city and drops another, and returns the
invalid tour `[1, 5, 3, 3, 2, 4, 1]` (city 3 twice, city 6 missing). -/
theorem claim_C1_threeOpt_breaks_permutation :
    ValidTour 6 [1, 6, 2, 3, 5, 4, 1] ∧
    three_opt (lineDist xsBad) (matFromDist (lineDist xsBad)) [1, 6, 2, 3, 5, 4, 1] 5 =
      .done 34 [1, 5, 3, 3, 2, 4, 1] ∧
    ¬ ValidTour 6 [1, 5, 3, 3, 2, 4, 1] := by decide

/-- Claim C3: every solver's reported length equals the independently
recomputed length of its returned tour.  Refuted on the code:
`held_karp` reports the optimal cost but returns the placeholder tour
`[1, 2, …, n, 1]`; on the collinear instance `xsHK` the reported cost is
6 while the returned tour has length 8. -/
theorem claim_C3_heldKarp_reports_wrong_tour :
    held_karp 4 (lineDist xsHK) = some (6, [1, 2, 3, 4, 1]) ∧
    path_length (lineDist xsHK) [1, 2, 3, 4, 1] = 8 ∧ (6 : ℤ) ≠ 8 := by decide

/-- Claim C4: neither local search ever returns a longer tour than its
input.  The `two_opt` half holds universally (for every distance
function, matrix and tour); the `three_opt` half is refuted: on the
collinear instance `xsInc`, from a valid tour of length 46, `three_opt`
accepts a case-3 move whose acceptance test compares edges that do not
match the reassembled tour, and terminates with length 66. -/
theorem claim_C4_twoOpt_monotone_threeOpt_increases :
    (∀ (d M : ℕ → ℕ → α) (tour : List ℕ),
      (two_opt d M tour).2 ≤ path_length d tour) ∧
    (ValidTour 6 [1, 5, 3, 6, 2, 4, 1] ∧
      path_length (lineDist xsInc) [1, 5, 3, 6, 2, 4, 1] = 46 ∧
      three_opt (lineDist xsInc) (matFromDist (lineDist xsInc)) [1, 5, 3, 6, 2, 4, 1] 5 =
        .done 66 [1, 3, 5, 2, 6, 4, 1] ∧ (46 : ℤ) < 66) :=
  ⟨fun d M tour => two_opt_le d M tour, by decide⟩

/-- Claim C5: `two_opt` applies the first improving move, restarts from
the updated tour, and returns a 2-opt-locally-optimal tour.  Refuted on
the code: `two_opt` never writes `best_tour` back into the scanned
`tour`, so it only optimizes over single reversals of the input; on the
collinear instance `xsLoc` it returns the tour `[1, 4, 2, 5, 6, 3, 1]`
of length 30, whose own `(i, j) = (3, 5)` reversal (exactly the move set
of the code) yields length 26. -/
theorem claim_C5_twoOpt_not_locally_optimal :
    ValidTour 6 [1, 6, 5, 2, 4, 3, 1] ∧
    two_opt (lineDist xsLoc) (matFromDist (lineDist xsLoc)) [1, 6, 5, 2, 4, 3, 1] =
      ([1, 4, 2, 5, 6, 3, 1], 30) ∧
    ([1, 4, 2, 5, 6, 3, 1].take 3 ++ (pySlice [1, 4, 2, 5, 6, 3, 1] 3 (5 + 1)).reverse ++
      [1, 4, 2, 5, 6, 3, 1].drop (5 + 1)) = [1, 4, 2, 3, 6, 5, 1] ∧
    path_length (lineDist xsLoc) [1, 4, 2, 3, 6, 5, 1] = 26 ∧ (26 : ℤ) < 30 := by decide

/-- Claim C6: on the single-city instance every solver returns length 0
and tour `[1, 1]`.  Refuted on the code: `held_karp` takes a `min` over
an empty sequence and `fuzzopt` calls `randint(1, 0)`, so both raise
(`none`) for every distance function, while `approx_tsp_tour` and
`christofides` do return `(0, [1, 1])`. -/
theorem claim_C6_single_city :
    (∀ (d : ℕ → ℕ → α), held_karp 1 d = none) ∧
    (∀ (d : ℕ → ℕ → α) (shuf : List ℕ) (draws : ℕ → ℕ × ℕ) (useThree : Bool)
      (maxIter : Option ℕ) (threeFuel : ℕ),
        fuzzopt 1 d shuf draws useThree maxIter threeFuel = none) ∧
    approx_tsp_tour 1 (fun _ _ => (0 : ℤ)) = (0, [1, 1]) ∧
    christofides 1 (fun _ _ => (0 : ℤ)) = some (0, [1, 1]) :=
  ⟨fun _ => rfl, fun _ _ _ _ _ _ => rfl, by decide, by decide⟩

/-! ### Claim C7: non-termination of `three_opt`

On the collinear instance `xsCyc`, starting from the valid tour
`[1, 3, 4, 2, 6, 5, 1]`, three accepted moves lead to the (already
invalid) tour `[1, 2, 2, 2, 2, 5, 1]`, whose first accepted case-4 move
reproduces the very same tour, so the `while improved:` loop never
exits: the loop result is `fuelOut` for every fuel. -/

/-- The tour `[1, 2, 2, 2, 2, 5, 1]` is a fixpoint that keeps the
`improved` flag set: the loop on it runs out of any fuel. -/
theorem cyc_loop_fix : ∀ (fuel : ℕ) (len : ℤ),
    three_opt_loop (lineDist xsCyc) (matFromDist (lineDist xsCyc)) 6 fuel
      [1, 2, 2, 2, 2, 5, 1] len = .fuelOut := by
  intro fuel
  induction fuel with
  | zero => intro len; rfl
  | succ f ih =>
    intro len
    have hs : three_opt_sweep (lineDist xsCyc) (matFromDist (lineDist xsCyc)) 6
        [1, 2, 2, 2, 2, 5, 1] = .found [1, 2, 2, 2, 2, 5, 1] 32 := by decide
    rw [three_opt_loop, hs]
    exact ih 32

/-- Second predecessor of the fixpoint on the cycling instance. -/
theorem cyc_loop_2 : ∀ (fuel : ℕ) (len : ℤ),
    three_opt_loop (lineDist xsCyc) (matFromDist (lineDist xsCyc)) 6 fuel
      [1, 4, 2, 2, 2, 5, 1] len = .fuelOut := by
  intro fuel
  cases fuel with
  | zero => intro len; rfl
  | succ f =>
    intro len
    have hs : three_opt_sweep (lineDist xsCyc) (matFromDist (lineDist xsCyc)) 6
        [1, 4, 2, 2, 2, 5, 1] = .found [1, 2, 2, 2, 2, 5, 1] 32 := by decide
    rw [three_opt_loop, hs]
    exact cyc_loop_fix f 32

/-- First predecessor of the fixpoint on the cycling instance. -/
theorem cyc_loop_1 : ∀ (fuel : ℕ) (len : ℤ),
    three_opt_loop (lineDist xsCyc) (matFromDist (lineDist xsCyc)) 6 fuel
      [1, 6, 2, 2, 4, 5, 1] len = .fuelOut := by
  intro fuel
  cases fuel with
  | zero => intro len; rfl
  | succ f =>
    intro len
    have hs : three_opt_sweep (lineDist xsCyc) (matFromDist (lineDist xsCyc)) 6
        [1, 6, 2, 2, 4, 5, 1] = .found [1, 4, 2, 2, 2, 5, 1] 32 := by decide
    rw [three_opt_loop, hs]
    exact cyc_loop_2 f 32

/-- Claim C7: the local-search loops always terminate, reaching a local
optimum being the only terminal condition.  Refuted on the code: on the
collinear instance `xsCyc`, from a valid input tour, `three_opt` loops
forever (its loop returns `fuelOut` no matter how much fuel it is
given). -/
theorem claim_C7_threeOpt_diverges :
    ValidTour 6 [1, 3, 4, 2, 6, 5, 1] ∧
    ∀ fuel : ℕ, three_opt (lineDist xsCyc) (matFromDist (lineDist xsCyc))
      [1, 3, 4, 2, 6, 5, 1] fuel = .fuelOut := by
  refine ⟨by decide, ?_⟩
  intro fuel
  show three_opt_loop (lineDist xsCyc) (matFromDist (lineDist xsCyc)) 6 fuel
    [1, 3, 4, 2, 6, 5, 1] (path_length (lineDist xsCyc) [1, 3, 4, 2, 6, 5, 1]) = .fuelOut
  cases fuel with
  | zero => rfl
  | succ f =>
    have hs : three_opt_sweep (lineDist xsCyc) (matFromDist (lineDist xsCyc)) 6
        [1, 3, 4, 2, 6, 5, 1] = .found [1, 6, 2, 2, 4, 5, 1] 32 := by decide
    rw [three_opt_loop, hs]
    exact cyc_loop_1 f 32

/-! ### Claim C9: `fuzzopt` never regresses below its initial tour -/

/-- The incumbent length of the `fuzzopt` loop never increases: whatever
the loop returns is bounded by the starting length. -/
theorem fuzz_loop_le (d M : ℕ → ℕ → α) (useThree : Bool) (threeFuel : ℕ)
    (draws : ℕ → ℕ × ℕ) :
    ∀ (m it : ℕ) (st : α × List ℕ) (fx : α) (x : List ℕ),
      fuzz_loop d M useThree threeFuel draws m it st = some (fx, x) → fx ≤ st.1 := by
  intro m
  induction m with
  | zero =>
    intro it st fx x h
    rw [fuzz_loop] at h
    cases h
    exact le_refl _
  | succ m ih =>
    intro it st fx x h
    rw [fuzz_loop] at h
    cases hr : local_pass d M useThree threeFuel
        (listSwap st.2 (draws it).1 (draws it).2) with
    | none => rw [hr] at h; cases h
    | some p =>
      rw [hr] at h
      have h2 := ih (it + 1) (if p.2 < st.1 then (p.2, p.1) else st) fx x h
      by_cases hlt : p.2 < st.1
      · rw [if_pos hlt] at h2
        exact le_trans h2 (le_of_lt hlt)
      · rwa [if_neg hlt] at h2

/-- Claim C9: for every instance and every sequence of random draws, the
length returned by `fuzzopt` is at most the length of its initial random
tour (greedy acceptance never regresses). -/
theorem claim_C9_fuzzopt_never_regresses (n : ℕ) (d : ℕ → ℕ → α)
    (shuf : List ℕ) (draws : ℕ → ℕ × ℕ) (useThree : Bool)
    (maxIter : Option ℕ) (threeFuel : ℕ) (fx : α) (x : List ℕ)
    (h : fuzzopt n d shuf draws useThree maxIter threeFuel = some (fx, x)) :
    fx ≤ path_length d (1 :: (shuf ++ [1])) := by
  rw [fuzzopt.eq_def] at h
  by_cases hn : n ≤ 1
  · rw [if_pos hn] at h; cases h
  · rw [if_neg hn] at h
    exact fuzz_loop_le d (matFromDist d) useThree threeFuel draws _ 0
      (path_length d (1 :: (shuf ++ [1])), 1 :: (shuf ++ [1])) fx x h

/-- Witness for claim C9: a concrete `fuzzopt` run (4 collinear cities,
2-opt engine) returns length 6, which is at most the initial random
tour's length. -/
theorem claim_C9_witness :
    fuzzopt 4 (lineDist xsHK) [3, 2, 4] (fun _ => (1, 2)) false none 0 =
      some (6, [1, 3, 2, 4, 1]) ∧
    (6 : ℤ) ≤ path_length (lineDist xsHK) (1 :: ([3, 2, 4] ++ [1])) :=
  ⟨by decide, claim_C9_fuzzopt_never_regresses 4 (lineDist xsHK) [3, 2, 4]
    (fun _ => (1, 2)) false none 0 6 [1, 3, 2, 4, 1] (by decide)⟩


/-! ### Claim C10: the odd-degree set is even and the greedy matching
never fails

The adjacency built by Prim's loop only grows through symmetric
`addEdge` calls, so the total degree is always even; by the handshake
argument the number of odd-degree keys is even, and the greedy matching
loop (which consumes two vertices per iteration) therefore never takes
`min` of an empty pool. -/

/-- Invariant of the `defaultdict` model: touched keys are distinct and
untouched keys still map to the empty list. -/
def AdjInv (a : Adj) : Prop :=
  a.keys.Nodup ∧ ∀ u, u ∉ a.keys → a.val u = []

/-- Total degree of the adjacency structure. -/
def degSum (a : Adj) : ℕ :=
  (a.keys.map fun k => (a.val k).length).sum

/-- The empty adjacency satisfies the invariant. -/
theorem adjInv_empty : AdjInv Adj.empty :=
  ⟨List.nodup_nil, fun _ _ => rfl⟩

/-- Updating the image of one key of a duplicate-free key list adds
exactly the length increment of that key to the mapped sum. -/
theorem sum_map_update (u : ℕ) :
    ∀ (l : List ℕ) (f g : ℕ → ℕ), l.Nodup → u ∈ l →
      (∀ w, w ≠ u → g w = f w) → g u = f u + 1 →
      (l.map g).sum = (l.map f).sum + 1 := by
  intro l
  induction l with
  | nil => intro f g _ hu; cases hu
  | cons w t ih =>
    intro f g hnd hu hne hgu
    rcases List.mem_cons.1 hu with rfl | hut
    · have ht : t.map g = t.map f := by
        apply List.map_congr_left
        intro x hx
        exact hne x (fun hxu => (List.nodup_cons.1 hnd).1 (hxu ▸ hx))
      simp only [List.map_cons, List.sum_cons, hgu, ht]
      omega
    · have hwu : w ≠ u := by
        intro hw
        exact (List.nodup_cons.1 hnd).1 (hw ▸ hut)
      have := ih f g (List.nodup_cons.1 hnd).2 hut hne hgu
      simp only [List.map_cons, List.sum_cons, hne w hwu, this]
      omega

/-- Touching a key preserves the invariant, keeps the value map, and
keeps the total degree; afterwards the key is present. -/
theorem adj_touch_spec (a : Adj) (u : ℕ) (h : AdjInv a) :
    AdjInv (a.touch u) ∧ (a.touch u).val = a.val ∧
      degSum (a.touch u) = degSum a ∧ u ∈ (a.touch u).keys := by
  unfold Adj.touch
  by_cases hc : a.keys.contains u
  · have hu : u ∈ a.keys := by simpa using hc
    rw [if_pos hc]
    exact ⟨h, rfl, rfl, hu⟩
  · have hu : u ∉ a.keys := by simpa using hc
    rw [if_neg hc]
    refine ⟨⟨?_, ?_⟩, rfl, ?_, ?_⟩
    · simp [List.nodup_append, h.1, hu]
    · intro w hw
      simp only [List.mem_append, List.mem_singleton, not_or] at hw
      exact h.2 w hw.1
    · show ((a.keys ++ [u]).map fun k => (a.val k).length).sum = _
      rw [List.map_append, List.sum_append]
      simp [h.2 u hu, degSum]
    · simp

/-- Appending one entry to one adjacency list preserves the invariant and
increments the total degree by one. -/
theorem adj_append_spec (a : Adj) (u x : ℕ) (h : AdjInv a) :
    AdjInv (a.append u x) ∧ degSum (a.append u x) = degSum a + 1 := by
  obtain ⟨h1, hval, hdeg, hu⟩ := adj_touch_spec a u h
  unfold Adj.append
  constructor
  · refine ⟨h1.1, ?_⟩
    intro w hw
    have hwu : w ≠ u := fun hweq => hw (hweq ▸ hu)
    simpa [hwu] using h1.2 w hw
  · rw [← hdeg]
    show ((a.touch u).keys.map fun k =>
      ((if k = u then (a.touch u).val u ++ [x] else (a.touch u).val k)).length).sum = _
    refine sum_map_update u (a.touch u).keys _ _ h1.1 hu ?_ ?_
    · intro w hwu; simp [hwu]
    · simp

/-- Adding an undirected edge preserves the invariant and increments the
total degree by two. -/
theorem adj_addEdge_spec (a : Adj) (u v : ℕ) (h : AdjInv a) :
    AdjInv (a.addEdge u v) ∧ degSum (a.addEdge u v) = degSum a + 2 := by
  obtain ⟨h1, hd1⟩ := adj_append_spec a u v h
  obtain ⟨h2, hd2⟩ := adj_append_spec (a.append u v) v u h1
  exact ⟨h2, by rw [Adj.addEdge, hd2, hd1]⟩

/-- Prim's loop preserves the invariant and the evenness of the total
degree. -/
theorem prim_loop_inv (d : ℕ → ℕ → α) (n : ℕ) :
    ∀ (fuel : ℕ) (st : PrimState α), AdjInv st.adj → Even (degSum st.adj) →
      AdjInv (prim_loop d n fuel st).adj ∧ Even (degSum (prim_loop d n fuel st).adj) := by
  intro fuel
  induction fuel with
  | zero => intro st h1 h2; exact ⟨h1, h2⟩
  | succ f ih =>
    intro st h1 h2
    rw [prim_loop]
    by_cases hv : st.visited.length < n
    · rw [if_pos hv]
      cases hm : heapMin st.heap with
      | none => exact ⟨h1, h2⟩
      | some e =>
        dsimp only
        by_cases hc : st.visited.contains e.2.2
        · rw [if_pos hc]
          exact ih _ h1 h2
        · rw [if_neg hc]
          obtain ⟨ha, hd⟩ := adj_addEdge_spec st.adj e.2.1 e.2.2 h1
          refine ih _ ha ?_
          rw [hd, Nat.even_iff] at *
          omega
    · rw [if_neg hv]
      exact ⟨h1, h2⟩

/-- The MST adjacency built by `prim` satisfies the invariant and has
even total degree. -/
theorem prim_inv (d : ℕ → ℕ → α) (n : ℕ) :
    AdjInv (prim d n) ∧ Even (degSum (prim d n)) := by
  unfold prim
  exact prim_loop_inv d n (prim_fuel n) _ adjInv_empty ⟨0, rfl⟩

/-- Handshake parity on lists: the number of keys with odd image has the
parity of the summed images. -/
theorem filter_odd_length_parity (f : ℕ → ℕ) :
    ∀ l : List ℕ,
      (l.filter fun v => f v % 2 = 1).length % 2 = (l.map f).sum % 2 := by
  intro l
  induction l with
  | nil => rfl
  | cons w t ih =>
    rw [List.map_cons, List.sum_cons, List.filter_cons]
    by_cases hw : f w % 2 = 1
    · rw [if_pos (by simpa using hw)]
      rw [List.length_cons]
      omega
    · rw [if_neg (by simpa using hw)]
      omega

/-- The odd-degree vertex list of the Prim adjacency has even length. -/
theorem oddVerts_even (d : ℕ → ℕ → α) (n : ℕ) :
    Even (oddVerts (prim d n)).length := by
  obtain ⟨-, h2⟩ := prim_inv d n
  have := filter_odd_length_parity (fun k => ((prim d n).val k).length) (prim d n).keys
  rw [Nat.even_iff] at h2 ⊢
  unfold oddVerts
  unfold degSum at h2
  omega

/-- Inserting into a sorted list is a permutation of consing. -/
theorem insertSorted_perm (x : ℕ) :
    ∀ l : List ℕ, (insertSorted x l).Perm (x :: l) := by
  intro l
  induction l with
  | nil => exact List.Perm.refl _
  | cons y ys ih =>
    rw [insertSorted]
    by_cases h : x ≤ y
    · rw [if_pos h]
    · rw [if_neg h]
      exact ((ih.cons y).trans (List.Perm.swap x y ys))

/-- Insertion sort permutes its input. -/
theorem sortNat_perm : ∀ l : List ℕ, (sortNat l).Perm l := by
  intro l
  induction l with
  | nil => exact List.Perm.refl _
  | cons x xs ih =>
    exact (insertSorted_perm x (sortNat xs)).trans (ih.cons x)

/-- The result of `argminD` is a member of the list. -/
theorem argminD_mem (f : ℕ → α) :
    ∀ (l : List ℕ) (v : ℕ), argminD f l = some v → v ∈ l := by
  have key : ∀ (xs : List ℕ) (x : ℕ),
      xs.foldl (fun m y => if f y < f m then y else m) x = x ∨
        xs.foldl (fun m y => if f y < f m then y else m) x ∈ xs := by
    intro xs
    induction xs with
    | nil => intro x; exact Or.inl rfl
    | cons y ys ih =>
      intro x
      have h1 : (y :: ys).foldl (fun m y => if f y < f m then y else m) x
          = ys.foldl (fun m y => if f y < f m then y else m)
            (if f y < f x then y else x) := rfl
      rw [h1]
      rcases ih (if f y < f x then y else x) with h | h
      · rw [h]
        by_cases hf : f y < f x
        · rw [if_pos hf]; exact Or.inr (List.mem_cons_self y ys)
        · rw [if_neg hf]; exact Or.inl rfl
      · exact Or.inr (List.mem_cons_of_mem y h)
  intro l v hl
  cases l with
  | nil => cases hl
  | cons x xs =>
    cases hl
    rcases key xs x with h | h
    · rw [h]; exact List.mem_cons_self x xs
    · exact List.mem_cons_of_mem x h

/-- The greedy matching loop succeeds on every even-sized pool (given
enough fuel) and its pairs enumerate the pool exactly. -/
theorem greedy_go_total (d : ℕ → ℕ → α) :
    ∀ (fuel : ℕ) (l : List ℕ) (adj : Adj), l.length ≤ fuel → Even l.length →
      ∃ adj' m, greedy_matching_go d fuel l adj = some (adj', m) ∧
        (m.flatMap fun p => [p.1, p.2]).Perm l := by
  intro fuel
  induction fuel with
  | zero =>
    intro l adj hlen _
    cases l with
    | nil => exact ⟨adj, [], rfl, List.Perm.refl _⟩
    | cons u t => simp at hlen
  | succ f ih =>
    intro l adj hlen heven
    match l with
    | [] => exact ⟨adj, [], rfl, List.Perm.refl _⟩
    | [u] =>
      rw [Nat.even_iff] at heven
      simp at heven
    | u :: v0 :: rest =>
      have hv : argminD (d u) (v0 :: rest) =
          some (rest.foldl (fun m y => if d u y < d u m then y else m) v0) := rfl
      set v := rest.foldl (fun m y => if d u y < d u m then y else m) v0 with hvdef
      have hvmem : v ∈ v0 :: rest := argminD_mem (d u) _ v hv
      have hlen2 : ((v0 :: rest).erase v).length = rest.length := by
        rw [List.length_erase_of_mem hvmem]
        rfl
      have hfuel2 : ((v0 :: rest).erase v).length ≤ f := by
        rw [hlen2]
        simp only [List.length_cons] at hlen
        omega
      have heven2 : Even ((v0 :: rest).erase v).length := by
        rw [hlen2]
        simp only [List.length_cons] at heven
        rw [Nat.even_iff] at heven ⊢
        omega
      obtain ⟨adj', m, hgo, hperm⟩ := ih ((v0 :: rest).erase v) (adj.addEdge u v)
        hfuel2 heven2
      refine ⟨adj', (u, v) :: m, ?_, ?_⟩
      · rw [greedy_matching_go, hv]
        dsimp only
        rw [hgo]
      · show (u :: v :: m.flatMap fun p => [p.1, p.2]).Perm (u :: v0 :: rest)
        refine List.Perm.cons u ?_
        exact (hperm.cons v).trans (List.perm_cons_erase hvmem).symm

/-- Claim C10: for every instance, the odd-degree vertex set of the MST
built inside `christofides` has even cardinality, the greedy matching
loop never takes a minimum over an empty pool (it returns a value), and
its pairs cover every odd-degree vertex exactly once. -/
theorem claim_C10_odd_even_matching_total (n : ℕ) (d : ℕ → ℕ → α) :
    Even (oddVerts (prim d n)).length ∧
    ∃ adj' m, greedy_matching d (sortNat (oddVerts (prim d n))) (prim d n) =
        some (adj', m) ∧
      (m.flatMap fun p => [p.1, p.2]).Perm (sortNat (oddVerts (prim d n))) := by
  have heven := oddVerts_even d n
  refine ⟨heven, ?_⟩
  have hlen : Even (sortNat (oddVerts (prim d n))).length := by
    rw [(sortNat_perm (oddVerts (prim d n))).length_eq]
    exact heven
  exact greedy_go_total d _ _ _ (le_refl _) hlen


/-! ### Claim C2: Held–Karp computes the brute-force optimum

The two halves of the classical DP argument: every concrete path through
a subset bounds the table entry from below (`dpF_le`), and some concrete
path attains it (`dpF_attain`).  Combining both at the full interior set
shows the returned cost equals the minimum over all closed tours. -/

/-- The last entry of a list is a member. -/
theorem mem_of_getLast?_eq {l : List ℕ} {k : ℕ} (h : l.getLast? = some k) :
    k ∈ l := by
  have hne : l ≠ [] := by intro hl; rw [hl] at h; cases h
  rw [List.getLast?_eq_getLast l hne] at h
  cases h
  exact List.getLast_mem hne

/-- Lower-bound half of the Held–Karp recurrence: the table entry for
`(S, j)` is at most the cost of any duplicate-free path that starts at
city 1, visits exactly the cities of `S`, and ends at `j`. -/
theorem dpF_le (d : ℕ → ℕ → α) :
    ∀ (fuel : ℕ) (S l : List ℕ) (j : ℕ), S.length ≤ fuel → l.Nodup →
      l.Perm S → l.getLast? = some j →
      dpF d fuel S j ≤ path_length d (1 :: l) := by
  intro fuel
  induction fuel with
  | zero =>
    intro S l j hlen _ hperm hlast
    have hS : S = [] := List.length_eq_zero.1 (Nat.le_zero.1 hlen)
    subst hS
    have hl : l = [] := List.perm_nil.1 hperm
    subst hl
    cases hlast
  | succ fuel ih =>
    intro S l j hlen hnd hperm hlast
    have hlne : l ≠ [] := by intro h; subst h; cases hlast
    have hj : l.getLast hlne = j := by
      have h2 := List.getLast?_eq_getLast l hlne
      rw [h2] at hlast
      exact Option.some.inj hlast
    have hdecomp : l.dropLast ++ [j] = l := by
      rw [← hj]; exact List.dropLast_append_getLast hlne
    by_cases hl' : l.dropLast = []
    · have hlj : l = [j] := by rw [← hdecomp, hl']; rfl
      have hSj : S = [j] := List.perm_singleton.1 (hperm.symm.trans (hlj ▸ List.Perm.refl l))
      subst hSj
      rw [hlj]
      rw [dpF]
      rw [List.erase_cons_head]
      show d 1 j ≤ d 1 j + 0
      rw [add_zero]
    · have hk := List.getLast?_eq_getLast l.dropLast hl'
      have hkmem : l.dropLast.getLast hl' ∈ l.dropLast := List.getLast_mem hl'
      have hjl' : j ∉ l.dropLast := by
        have hnd2 : (l.dropLast ++ [j]).Nodup := by rw [hdecomp]; exact hnd
        rcases List.nodup_append.1 hnd2 with ⟨-, -, hdisj⟩
        intro hjm
        exact hdisj hjm (List.mem_singleton.2 rfl)
      have hjS : j ∈ S := hperm.subset (mem_of_getLast?_eq hlast)
      have hl'perm : l.dropLast.Perm (S.erase j) := by
        have h1 := hperm.erase j
        have h2 : l.erase j = l.dropLast := by
          rw [← hdecomp, List.erase_append_right _ hjl']
          simp
        rwa [h2] at h1
      have hl'nd : l.dropLast.Nodup := (List.dropLast_sublist l).nodup hnd
      have hlen' : (S.erase j).length ≤ fuel := by
        rw [List.length_erase_of_mem hjS]
        have h3 : 0 < S.length := List.length_pos.2 (List.ne_nil_of_mem hjS)
        omega
      have hIH := ih (S.erase j) l.dropLast (l.dropLast.getLast hl') hlen' hl'nd hl'perm hk
      have hkS' : l.dropLast.getLast hl' ∈ S.erase j := hl'perm.subset hkmem
      have hfk : (dpF d fuel (S.erase j) (l.dropLast.getLast hl') +
            d (l.dropLast.getLast hl') j)
          ∈ (S.erase j).map fun k => dpF d fuel (S.erase j) k + d k j :=
        List.mem_map_of_mem _ hkS'
      have hne' : ((S.erase j).map fun k => dpF d fuel (S.erase j) k + d k j) ≠ [] := by
        intro hmm
        rw [hmm] at hfk
        cases hfk
      obtain ⟨mval, hmval⟩ := listMin_isSome hne'
      have hmle := listMin_le hmval hfk
      rw [dpF]
      rw [hmval]
      have h5 : (1 :: l.dropLast).getLast? = some (l.dropLast.getLast hl') := by
        rw [getLast?_cons_of_ne_nil hl']; exact hk
      have hsplit : path_length d (1 :: l) =
          path_length d (1 :: l.dropLast) + d (l.dropLast.getLast hl') j := by
        have h0 : (1 :: l) = (1 :: l.dropLast) ++ [j] := by
          conv_lhs => rw [← hdecomp]
          rfl
        rw [h0]
        exact path_length_append_last d (1 :: l.dropLast) _ j h5
      rw [hsplit]
      exact le_trans hmle (add_le_add_right hIH _)

/-- Attainment half of the Held–Karp recurrence: the table entry for
`(S, j)` is the cost of some duplicate-free path through `S` ending at
`j`. -/
theorem dpF_attain (d : ℕ → ℕ → α) :
    ∀ (fuel : ℕ) (S : List ℕ) (j : ℕ), S.Nodup → j ∈ S → S.length ≤ fuel →
      ∃ l, l.Nodup ∧ l.Perm S ∧ l.getLast? = some j ∧
        path_length d (1 :: l) = dpF d fuel S j := by
  intro fuel
  induction fuel with
  | zero =>
    intro S j _ hj hlen
    have hS : S = [] := List.length_eq_zero.1 (Nat.le_zero.1 hlen)
    subst hS
    cases hj
  | succ fuel ih =>
    intro S j hnd hj hlen
    by_cases hS' : S.erase j = []
    · have hSj : S = [j] := by
        have h1 := List.perm_cons_erase hj
        rw [hS'] at h1
        exact List.perm_singleton.1 h1
      refine ⟨[j], List.nodup_singleton j, by rw [hSj], rfl, ?_⟩
      rw [dpF]
      rw [hS']
      show d 1 j + 0 = d 1 j
      rw [add_zero]
    · have hmapne : ((S.erase j).map fun k => dpF d fuel (S.erase j) k + d k j) ≠ [] := by
        intro hmm
        exact hS' (List.map_eq_nil_iff.1 hmm)
      obtain ⟨mval, hmval⟩ := listMin_isSome hmapne
      have hmem := listMin_mem hmval
      obtain ⟨k, hkS', hkval⟩ := List.mem_map.1 hmem
      have hS'nd : (S.erase j).Nodup := hnd.erase j
      have hlen' : (S.erase j).length ≤ fuel := by
        rw [List.length_erase_of_mem hj]
        have h3 : 0 < S.length := List.length_pos.2 (List.ne_nil_of_mem hj)
        omega
      obtain ⟨l', hl'nd, hl'perm, hl'last, hl'cost⟩ := ih (S.erase j) k hS'nd hkS' hlen'
      have hjl' : j ∉ l' := by
        intro hmm
        have h6 : j ∈ S.erase j := hl'perm.subset hmm
        rw [hnd.mem_erase_iff] at h6
        exact h6.1 rfl
      have hl'ne : l' ≠ [] := by
        intro hmm; rw [hmm] at hl'last; cases hl'last
      refine ⟨l' ++ [j], ?_, ?_, List.getLast?_concat l', ?_⟩
      · rw [List.nodup_append]
        refine ⟨hl'nd, List.nodup_singleton j, ?_⟩
        intro a ha hb
        rw [List.mem_singleton] at hb
        subst hb
        exact hjl' ha
      · exact (List.perm_append_singleton j l').trans
          ((hl'perm.cons j).trans (List.perm_cons_erase hj).symm)
      · have h5 : (1 :: l').getLast? = some k := by
          rw [getLast?_cons_of_ne_nil hl'ne]; exact hl'last
        have hsplit : path_length d (1 :: (l' ++ [j])) =
            path_length d (1 :: l') + d k j := by
          have h0 : (1 :: (l' ++ [j])) = (1 :: l') ++ [j] := rfl
          rw [h0]
          exact path_length_append_last d (1 :: l') k j h5
        rw [hsplit, hl'cost, hkval]
        rw [dpF]
        rw [hmval]

/-- Main lemma for claim C2: for every instance with at least two cities,
the cost reported by `held_karp` is the brute-force optimum. -/
theorem held_karp_eq_bruteForce (n : ℕ) (d : ℕ → ℕ → α) (hn : 2 ≤ n) :
    (held_karp n d).map Prod.fst = bruteForce n d := by
  have hlen : (interior n).length = n - 1 := by
    unfold interior pyRange
    rw [List.length_range']
    omega
  have hIntNe : interior n ≠ [] := by
    rw [← List.length_pos, hlen]
    omega
  have hIntNd : (interior n).Nodup := by
    unfold interior pyRange
    exact List.nodup_range' 2 (n + 1 - 2)
  -- the held-karp candidate list is nonempty
  have hheldne : ((interior n).map fun j => hk_dp d (interior n) j + d j 1) ≠ [] := by
    intro hmm
    exact hIntNe (List.map_eq_nil_iff.1 hmm)
  obtain ⟨c, hc⟩ := listMin_isSome hheldne
  -- the brute-force candidate list is nonempty
  have hbrutene : ((interior n).permutations'.map fun l =>
      path_length d (1 :: (l ++ [1]))) ≠ [] := by
    intro hmm
    have h1 : interior n ∈ (interior n).permutations' :=
      List.mem_permutations'.2 (List.Perm.refl _)
    rw [List.map_eq_nil_iff.1 hmm] at h1
    cases h1
  obtain ⟨b, hb⟩ := listMin_isSome hbrutene
  -- cost of a closed tour through a permutation, split at the last city
  have hcost : ∀ l : List ℕ, l.Perm (interior n) →
      ∃ jl, l.getLast? = some jl ∧ jl ∈ interior n ∧
        path_length d (1 :: (l ++ [1])) = path_length d (1 :: l) + d jl 1 := by
    intro l hperm
    have hlne : l ≠ [] := by
      intro hmm
      subst hmm
      exact hIntNe (List.perm_nil.1 hperm.symm)
    have hlast := List.getLast?_eq_getLast l hlne
    refine ⟨l.getLast hlne, hlast, hperm.subset (List.getLast_mem hlne), ?_⟩
    have h0 : (1 :: (l ++ [1])) = (1 :: l) ++ [1] := rfl
    rw [h0]
    refine path_length_append_last d (1 :: l) _ 1 ?_
    rw [getLast?_cons_of_ne_nil hlne]
    exact hlast
  -- c ≤ b
  have hcb : c ≤ b := by
    have hbmem := listMin_mem hb
    obtain ⟨l, hlp, hlcost⟩ := List.mem_map.1 hbmem
    have hperm : l.Perm (interior n) := List.mem_permutations'.1 hlp
    obtain ⟨jl, hjlast, hjmem, hsplit⟩ := hcost l hperm
    have hlnd : l.Nodup := hperm.symm.nodup hIntNd
    have hle := dpF_le d (interior n).length (interior n) l jl (le_refl _)
      hlnd hperm hjlast
    have hheld : (hk_dp d (interior n) jl + d jl 1)
        ∈ (interior n).map fun j => hk_dp d (interior n) j + d j 1 :=
      List.mem_map_of_mem _ hjmem
    calc c ≤ hk_dp d (interior n) jl + d jl 1 := listMin_le hc hheld
      _ ≤ path_length d (1 :: l) + d jl 1 := add_le_add_right hle _
      _ = path_length d (1 :: (l ++ [1])) := hsplit.symm
      _ = b := hlcost
  -- b ≤ c
  have hbc : b ≤ c := by
    have hcmem := listMin_mem hc
    obtain ⟨jstar, hjmem, hjval⟩ := List.mem_map.1 hcmem
    obtain ⟨lstar, hlnd, hlperm, hllast, hlcost⟩ :=
      dpF_attain d (interior n).length (interior n) jstar hIntNd hjmem (le_refl _)
    obtain ⟨jl, hjlast, -, hsplit⟩ := hcost lstar hlperm
    have hjeq : jl = jstar := by
      rw [hllast] at hjlast
      exact (Option.some.inj hjlast).symm
    have hlmem : (path_length d (1 :: (lstar ++ [1])))
        ∈ (interior n).permutations'.map fun l => path_length d (1 :: (l ++ [1])) :=
      List.mem_map_of_mem _ (List.mem_permutations'.2 hlperm)
    calc b ≤ path_length d (1 :: (lstar ++ [1])) := listMin_le hb hlmem
      _ = path_length d (1 :: lstar) + d jl 1 := hsplit
      _ = hk_dp d (interior n) jstar + d jstar 1 := by
          rw [hjeq, hlcost]; rfl
      _ = c := hjval
  have hcbeq : c = b := le_antisymm hcb hbc
  -- assemble both sides
  unfold held_karp
  rw [hc]
  unfold bruteForce
  rw [hb, hcbeq]
  rfl

/-- Claim C2: for every instance with `2 ≤ n ≤ 10`, the cost returned by
`held_karp` equals the brute-force optimum over all closed tours through
all cities starting and ending at city 1. -/
theorem claim_C2_heldKarp_optimal (n : ℕ) (d : ℕ → ℕ → α) (h2 : 2 ≤ n)
    (_h10 : n ≤ 10) :
    (held_karp n d).map Prod.fst = bruteForce n d :=
  held_karp_eq_bruteForce n d h2

/-- Witness for claim C2: on three collinear cities at 0, 1, 2 the
Held–Karp cost and the brute-force optimum are both 4. -/
theorem claim_C2_witness :
    ((2 ≤ 3 ∧ 3 ≤ 10) ∧
      (held_karp 3 (lineDist ([0, 1, 2] : List ℤ))).map Prod.fst =
        bruteForce 3 (lineDist ([0, 1, 2] : List ℤ))) ∧
    bruteForce 3 (lineDist ([0, 1, 2] : List ℤ)) = some 4 :=
  ⟨⟨⟨by decide, by decide⟩,
    claim_C2_heldKarp_optimal 3 (lineDist ([0, 1, 2] : List ℤ)) (by decide) (by decide)⟩,
   by decide⟩


/-! ### Termination of `two_opt`

The Python `while improved:` loop of `two_opt` always terminates: an
improving sweep strictly decreases `best_length`, and every reachable
`best_length` is drawn from the finite candidate list below.  Hence the
fuel `two_opt_fuel n` supplied in the embedding is sufficient, and the
state returned by `two_opt` is a fixpoint: one more sweep leaves it
unchanged with the `improved` flag cleared (the code's exit condition). -/

/-- Candidate tour lengths reachable by one accepted `two_opt` move on
`tour`. -/
def cands2 (d : ℕ → ℕ → α) (tour : List ℕ) (n : ℕ) : List α :=
  (pairs2 n).map fun p =>
    path_length d (tour.take p.1 ++ (pySlice tour p.1 (p.2 + 1)).reverse ++
      tour.drop (p.2 + 1))

/-- Monotonicity of the strict-lower-bound count. -/
theorem filter_lt_length_le (a b : α) (hab : a ≤ b) (l : List α) :
    (l.filter fun x => x < a).length ≤ (l.filter fun x => x < b).length := by
  induction l with
  | nil => exact le_refl _
  | cons y t ih =>
    rw [List.filter_cons, List.filter_cons]
    by_cases h1 : y < a
    · rw [if_pos (decide_eq_true h1), if_pos (decide_eq_true (lt_of_lt_of_le h1 hab))]
      simp only [List.length_cons]
      omega
    · rw [if_neg (by simpa using h1)]
      by_cases h2 : y < b
      · rw [if_pos (decide_eq_true h2)]
        simp only [List.length_cons]
        omega
      · rw [if_neg (by simpa using h2)]
        exact ih

/-- Strict decrease of the strict-lower-bound count when the new bound is
itself a member below the old bound. -/
theorem filter_lt_length_lt (a b : α) (hab : a < b) :
    ∀ l : List α, a ∈ l →
      (l.filter fun x => x < a).length < (l.filter fun x => x < b).length := by
  intro l
  induction l with
  | nil => intro h; cases h
  | cons y t ih =>
    intro hmem
    rw [List.filter_cons, List.filter_cons]
    rcases List.mem_cons.1 hmem with rfl | hat
    · rw [if_neg (by simp), if_pos (decide_eq_true hab)]
      have := filter_lt_length_le a b (le_of_lt hab) t
      simp only [List.length_cons]
      omega
    · have hstrict := ih hat
      by_cases h1 : y < a
      · rw [if_pos (decide_eq_true h1), if_pos (decide_eq_true (lt_trans h1 hab))]
        simp only [List.length_cons]
        omega
      · rw [if_neg (by simpa using h1)]
        by_cases h2 : y < b
        · rw [if_pos (decide_eq_true h2)]
          simp only [List.length_cons]
          omega
        · rw [if_neg (by simpa using h2)]
          exact hstrict

/-- One `two_opt` visit either leaves the state unchanged or switches to
the candidate tour of its pair with a strictly smaller length and the
`improved` flag set. -/
theorem two_opt_visit_cases (d M : ℕ → ℕ → α) (tour : List ℕ)
    (st : TwoState α) (p : ℕ × ℕ) :
    two_opt_visit d M tour st p = st ∨
      (two_opt_visit d M tour st p =
        ⟨tour.take p.1 ++ (pySlice tour p.1 (p.2 + 1)).reverse ++ tour.drop (p.2 + 1),
         path_length d (tour.take p.1 ++ (pySlice tour p.1 (p.2 + 1)).reverse ++
           tour.drop (p.2 + 1)), true⟩ ∧
       path_length d (tour.take p.1 ++ (pySlice tour p.1 (p.2 + 1)).reverse ++
         tour.drop (p.2 + 1)) < st.best_length) := by
  unfold two_opt_visit
  by_cases h1 : M (tour.getD (p.1 - 1) 0 - 1) (tour.getD p.2 0 - 1) +
      M (tour.getD p.1 0 - 1) (tour.getD (p.2 + 1) 0 - 1) <
      M (tour.getD (p.1 - 1) 0 - 1) (tour.getD p.1 0 - 1) +
      M (tour.getD p.2 0 - 1) (tour.getD (p.2 + 1) 0 - 1)
  · rw [if_pos h1]
    by_cases h2 : path_length d (tour.take p.1 ++
        (pySlice tour p.1 (p.2 + 1)).reverse ++ tour.drop (p.2 + 1)) < st.best_length
    · rw [if_pos h2]
      exact Or.inr ⟨rfl, h2⟩
    · rw [if_neg h2]
      exact Or.inl rfl
  · rw [if_neg h1]
    exact Or.inl rfl

/-- A `two_opt` sweep either leaves the state unchanged or returns a
state whose length is strictly smaller and drawn from the candidate
list, with the `improved` flag set. -/
theorem two_opt_sweep_cases (d M : ℕ → ℕ → α) (n : ℕ) (tour : List ℕ)
    (st : TwoState α) :
    two_opt_sweep d M n tour st = st ∨
      ((two_opt_sweep d M n tour st).best_length < st.best_length ∧
       (two_opt_sweep d M n tour st).best_length ∈ cands2 d tour n ∧
       (two_opt_sweep d M n tour st).improved = true) := by
  have key : ∀ (ps : List (ℕ × ℕ)) (st : TwoState α), (∀ p ∈ ps, p ∈ pairs2 n) →
      ps.foldl (two_opt_visit d M tour) st = st ∨
        ((ps.foldl (two_opt_visit d M tour) st).best_length < st.best_length ∧
         (ps.foldl (two_opt_visit d M tour) st).best_length ∈ cands2 d tour n ∧
         (ps.foldl (two_opt_visit d M tour) st).improved = true) := by
    intro ps
    induction ps with
    | nil => intro st _; exact Or.inl rfl
    | cons p ps ih =>
      intro st hsub
      have hrest : ∀ q ∈ ps, q ∈ pairs2 n :=
        fun q hq => hsub q (List.mem_cons_of_mem p hq)
      have hfold : (p :: ps).foldl (two_opt_visit d M tour) st =
          ps.foldl (two_opt_visit d M tour) (two_opt_visit d M tour st p) := rfl
      rw [hfold]
      rcases two_opt_visit_cases d M tour st p with hv | ⟨hv, hlt⟩
      · rw [hv]
        exact ih st hrest
      · have hmem : (two_opt_visit d M tour st p).best_length ∈ cands2 d tour n := by
          rw [hv]
          exact List.mem_map_of_mem _ (hsub p (List.mem_cons_self p ps))
        have hlt2 : (two_opt_visit d M tour st p).best_length < st.best_length := by
          rw [hv]; exact hlt
        have himp : (two_opt_visit d M tour st p).improved = true := by
          rw [hv]
        rcases ih (two_opt_visit d M tour st p) hrest with hr | ⟨hr1, hr2, hr3⟩
        · rw [hr]
          exact Or.inr ⟨hlt2, hmem, himp⟩
        · exact Or.inr ⟨lt_trans hr1 hlt2, hr2, hr3⟩
  exact key (pairs2 n) st (fun p hp => hp)

/-- With enough fuel (one unit per possible strict decrease, plus one),
the `two_opt` loop exits through the code's own exit condition: the
state it returns is a sweep fixpoint with a cleared `improved` flag. -/
theorem two_opt_loop_exits (d M : ℕ → ℕ → α) (n : ℕ) (tour : List ℕ) :
    ∀ (fuel : ℕ) (st : TwoState α),
      ((cands2 d tour n).filter fun x => x < st.best_length).length + 1 ≤ fuel →
      two_opt_sweep d M n tour
          { two_opt_loop d M n tour fuel st with improved := false } =
        { two_opt_loop d M n tour fuel st with improved := false } := by
  intro fuel
  induction fuel with
  | zero => intro st h; omega
  | succ f ih =>
    intro st hfuel
    have hstep : two_opt_loop d M n tour (f + 1) st =
        (let st' := two_opt_sweep d M n tour { st with improved := false }
         if st'.improved then two_opt_loop d M n tour f st' else st') := rfl
    rcases two_opt_sweep_cases d M n tour { st with improved := false } with hfix |
      ⟨hlt, hmem, himp⟩
    · have hnoimp : (two_opt_sweep d M n tour { st with improved := false }).improved
          = false := by rw [hfix]
      rw [hstep]
      simp only [hnoimp, if_false]
      rw [hfix]
      have heta : ∀ s : TwoState α, ({ { s with improved := false } with
          improved := false } : TwoState α) = { s with improved := false } :=
        fun s => rfl
      rw [heta]
      exact hfix
    · rw [hstep]
      simp only [himp, if_true]
      refine ih _ ?_
      have hdec := filter_lt_length_lt
        (two_opt_sweep d M n tour { st with improved := false }).best_length
        st.best_length hlt (cands2 d tour n) hmem
      omega

/-- Termination of `two_opt`: the returned state is a fixpoint of the
sweep, i.e. the Python loop exits normally with exactly this result. -/
theorem two_opt_halts (d M : ℕ → ℕ → α) (tour : List ℕ) :
    two_opt_sweep d M (tour.length - 1) tour
        ⟨(two_opt d M tour).1, (two_opt d M tour).2, false⟩ =
      ⟨(two_opt d M tour).1, (two_opt d M tour).2, false⟩ := by
  have hbound : ((cands2 d tour (tour.length - 1)).filter
      fun x => x < path_length d tour).length + 1 ≤ two_opt_fuel (tour.length - 1) := by
    have h1 := List.length_filter_le (fun x => decide (x < path_length d tour))
      (cands2 d tour (tour.length - 1))
    have h2 : (cands2 d tour (tour.length - 1)).length =
        (pairs2 (tour.length - 1)).length := List.length_map _ _
    unfold two_opt_fuel
    omega
  exact two_opt_loop_exits d M (tour.length - 1) tour
    (two_opt_fuel (tour.length - 1)) ⟨tour, path_length d tour, true⟩ hbound

end TSPSpec

namespace TSPSpec

variable {α : Type} [LinearOrderedAddCommGroup α] (d : ℕ → ℕ → α)

/-! ### Phase 1: abstract characterization of Prim's loop -/

/-- Valid histories of Prim's algorithm: starting from the root, each step
attaches a fresh vertex `v` through an edge `(u, v)` from the visited set
whose weight is minimal over the whole cut. -/
inductive PrimSteps (d : ℕ → ℕ → α) (n : ℕ) : List ℕ → List (ℕ × ℕ) → Prop
  | init : PrimSteps d n [1] []
  | step (S : List ℕ) (E : List (ℕ × ℕ)) (u v : ℕ) :
      PrimSteps d n S E → u ∈ S → v ∈ pyRange 1 (n + 1) → v ∉ S →
      (∀ u' w', u' ∈ S → w' ∈ pyRange 1 (n + 1) → w' ∉ S → d u v ≤ d u' w') →
      PrimSteps d n (S ++ [v]) (E ++ [(u, v)])

/-- Adjacency built from an accepted-edge list. -/
def buildAdj (E : List (ℕ × ℕ)) : Adj :=
  E.foldl (fun a e => a.addEdge e.1 e.2) Adj.empty

/-- The least element of a nonempty heap is a member. -/
theorem heapMin_mem : ∀ {l : List (α × ℕ × ℕ)} {e : α × ℕ × ℕ},
    heapMin l = some e → e ∈ l := by
  have key : ∀ (xs : List (α × ℕ × ℕ)) (x : α × ℕ × ℕ),
      xs.foldl (fun m y => if tripLt y m then y else m) x = x ∨
        xs.foldl (fun m y => if tripLt y m then y else m) x ∈ xs := by
    intro xs
    induction xs with
    | nil => intro x; exact Or.inl rfl
    | cons y ys ih =>
      intro x
      have h1 : (y :: ys).foldl (fun m y => if tripLt y m then y else m) x
          = ys.foldl (fun m y => if tripLt y m then y else m)
            (if tripLt y x then y else x) := rfl
      rw [h1]
      rcases ih (if tripLt y x then y else x) with h | h
      · rw [h]
        by_cases hf : tripLt y x
        · rw [if_pos hf]; exact Or.inr (List.mem_cons_self y ys)
        · rw [if_neg hf]; exact Or.inl rfl
      · exact Or.inr (List.mem_cons_of_mem y h)
  intro l e hl
  cases l with
  | nil => cases hl
  | cons x xs =>
    cases hl
    rcases key xs x with h | h
    · rw [h]; exact List.mem_cons_self x xs
    · exact List.mem_cons_of_mem x h

/-- The least element of a heap has minimal weight among all members. -/
theorem heapMin_le_weight : ∀ {l : List (α × ℕ × ℕ)} {e : α × ℕ × ℕ},
    heapMin l = some e → ∀ t ∈ l, e.1 ≤ t.1 := by
  have key : ∀ (xs : List (α × ℕ × ℕ)) (x : α × ℕ × ℕ),
      (xs.foldl (fun m y => if tripLt y m then y else m) x).1 ≤ x.1 ∧
        ∀ t ∈ xs, (xs.foldl (fun m y => if tripLt y m then y else m) x).1 ≤ t.1 := by
    intro xs
    induction xs with
    | nil => intro x; exact ⟨le_refl _, fun t ht => absurd ht (List.not_mem_nil t)⟩
    | cons y ys ih =>
      intro x
      have h1 : (y :: ys).foldl (fun m y => if tripLt y m then y else m) x
          = ys.foldl (fun m y => if tripLt y m then y else m)
            (if tripLt y x then y else x) := rfl
      have hstep : (if tripLt y x then y else x).1 ≤ x.1 ∧
          (if tripLt y x then y else x).1 ≤ y.1 := by
        by_cases hf : tripLt y x
        · rw [if_pos hf]
          unfold tripLt at hf
          simp only [decide_eq_true_eq] at hf
          rcases hf with h | ⟨h, -⟩
          · exact ⟨le_of_lt h, le_refl _⟩
          · exact ⟨le_of_eq h, le_refl _⟩
        · rw [if_neg hf]
          refine ⟨le_refl _, ?_⟩
          unfold tripLt at hf
          simp only [decide_eq_true_eq] at hf
          push_neg at hf
          exact hf.1
      obtain ⟨ih1, ih2⟩ := ih (if tripLt y x then y else x)
      rw [h1]
      refine ⟨le_trans ih1 hstep.1, ?_⟩
      intro t ht
      rcases List.mem_cons.1 ht with rfl | htys
      · exact le_trans ih1 hstep.2
      · exact ih2 t htys
  intro l e hl t ht
  cases l with
  | nil => cases hl
  | cons x xs =>
    cases hl
    rcases List.mem_cons.1 ht with rfl | htxs
    · exact (key xs t).1
    · exact (key xs x).2 t htxs

end TSPSpec

namespace TSPSpec

variable {α : Type} [LinearOrderedAddCommGroup α]

/-- The root is always visited. -/
theorem primSteps_one_mem {d : ℕ → ℕ → α} {n : ℕ} {S : List ℕ} {E : List (ℕ × ℕ)}
    (h : PrimSteps d n S E) : 1 ∈ S := by
  induction h with
  | init => exact List.mem_singleton.2 rfl
  | step S E u v _ _ _ _ _ ih => exact List.mem_append_left _ ih

/-- The visited list of a Prim history has no duplicates. -/
theorem primSteps_nodup {d : ℕ → ℕ → α} {n : ℕ} {S : List ℕ} {E : List (ℕ × ℕ)}
    (h : PrimSteps d n S E) : S.Nodup := by
  induction h with
  | init => exact List.nodup_singleton 1
  | step S E u v _ _ _ hv _ ih =>
    rw [List.nodup_append]
    exact ⟨ih, List.nodup_singleton v, fun a ha hb => by
      rw [List.mem_singleton] at hb; subst hb; exact hv ha⟩

/-- All visited vertices lie in the label range. -/
theorem primSteps_subset {d : ℕ → ℕ → α} {n : ℕ} {S : List ℕ} {E : List (ℕ × ℕ)}
    (hn : 1 ≤ n) (h : PrimSteps d n S E) : ∀ x ∈ S, x ∈ pyRange 1 (n + 1) := by
  induction h with
  | init =>
    intro x hx
    rw [List.mem_singleton] at hx
    subst hx
    unfold pyRange
    rw [List.mem_range']
    exact ⟨0, by omega, by omega⟩
  | step S E u v _ _ hvr _ _ ih =>
    intro x hx
    rcases List.mem_append.1 hx with h1 | h1
    · exact ih x h1
    · rw [List.mem_singleton] at h1
      subst h1
      exact hvr

/-- Loop invariant tying the concrete Prim state to an abstract history:
its accepted edges form a `PrimSteps` run, heap entries are correctly
weighted edges out of the visited set into the label range, and every
cut edge is present in the heap. -/
def PrimInv (d : ℕ → ℕ → α) (n : ℕ) (st : PrimState α) : Prop :=
  (∃ S E, PrimSteps d n S E ∧ st.visited = S ∧ st.adj = buildAdj E) ∧
  (∀ t ∈ st.heap, t.1 = d t.2.1 t.2.2 ∧ t.2.1 ∈ st.visited ∧
    t.2.2 ∈ pyRange 1 (n + 1)) ∧
  (∀ u w, u ∈ st.visited → w ∈ pyRange 1 (n + 1) → w ∉ st.visited →
    (d u w, u, w) ∈ st.heap)

/-- One `addEdge` fold step. -/
theorem buildAdj_concat (E : List (ℕ × ℕ)) (e : ℕ × ℕ) :
    buildAdj (E ++ [e]) = (buildAdj E).addEdge e.1 e.2 := by
  unfold buildAdj
  rw [List.foldl_append]
  rfl

/-- The Prim loop preserves the invariant. -/
theorem prim_loop_pres (d : ℕ → ℕ → α) (n : ℕ) :
    ∀ (fuel : ℕ) (st : PrimState α), PrimInv d n st →
      PrimInv d n (prim_loop d n fuel st) := by
  intro fuel
  induction fuel with
  | zero => intro st h; exact h
  | succ f ih =>
    intro st h
    obtain ⟨⟨S, E, hsteps, hvis, hadj⟩, hh1, hh2⟩ := h
    rw [prim_loop]
    by_cases hv : st.visited.length < n
    · rw [if_pos hv]
      cases hm : heapMin st.heap with
      | none => exact ⟨⟨S, E, hsteps, hvis, hadj⟩, hh1, hh2⟩
      | some e =>
        dsimp only
        have hemem := heapMin_mem hm
        obtain ⟨hew, heu, her⟩ := hh1 e hemem
        by_cases hc : st.visited.contains e.2.2
        · rw [if_pos hc]
          refine ih _ ⟨⟨S, E, hsteps, hvis, hadj⟩, ?_, ?_⟩
          · intro t ht
            exact hh1 t (List.mem_of_mem_erase ht)
          · intro u w hu hw hwv
            have hne : (d u w, u, w) ≠ e := by
              intro heq
              have : w = e.2.2 := by rw [← heq]
              rw [this] at hwv
              exact hwv (by simpa using hc)
            exact (List.mem_erase_of_ne hne).2 (hh2 u w hu hw hwv)
        · rw [if_neg hc]
          have hvnot : e.2.2 ∉ st.visited := by simpa using hc
          have hcut : ∀ u' w', u' ∈ S → w' ∈ pyRange 1 (n + 1) → w' ∉ S →
              d e.2.1 e.2.2 ≤ d u' w' := by
            intro u' w' hu' hw' hw's
            have hmem := hh2 u' w' (hvis ▸ hu') hw' (hvis ▸ hw's)
            have := heapMin_le_weight hm _ hmem
            rw [hew] at this
            exact this
          have hsteps' : PrimSteps d n (S ++ [e.2.2]) (E ++ [(e.2.1, e.2.2)]) :=
            PrimSteps.step S E e.2.1 e.2.2 hsteps (hvis ▸ heu) her
              (hvis ▸ hvnot) hcut
          refine ih _ ⟨⟨S ++ [e.2.2], E ++ [(e.2.1, e.2.2)], hsteps', ?_, ?_⟩, ?_, ?_⟩
          · show st.visited ++ [e.2.2] = S ++ [e.2.2]
            rw [hvis]
          · show (st.adj.addEdge e.2.1 e.2.2) = buildAdj (E ++ [(e.2.1, e.2.2)])
            rw [buildAdj_concat, hadj]
          · intro t ht
            rcases List.mem_append.1 ht with h1 | h1
            · obtain ⟨a1, a2, a3⟩ := hh1 t (List.mem_of_mem_erase h1)
              exact ⟨a1, List.mem_append_left _ a2, a3⟩
            · obtain ⟨w, hwf, hwt⟩ := List.mem_map.1 h1
              obtain ⟨hwr, -⟩ := List.mem_filter.1 hwf
              subst hwt
              exact ⟨rfl, List.mem_append_right _ (List.mem_singleton.2 rfl), hwr⟩
          · intro u w hu hw hwv
            have hwvnew : w ∉ st.visited ++ [e.2.2] := hwv
            have hwold : w ∉ st.visited :=
              fun hmm => hwvnew (List.mem_append_left _ hmm)
            have hwnotv : w ≠ e.2.2 := by
              intro heq
              exact hwvnew (heq ▸ List.mem_append_right _ (List.mem_singleton.2 rfl))
            rcases List.mem_append.1 hu with h1 | h1
            · have hne : (d u w, u, w) ≠ e := by
                intro heq
                have : w = e.2.2 := by rw [← heq]
                exact hwnotv this
              exact List.mem_append_left _
                ((List.mem_erase_of_ne hne).2 (hh2 u w h1 hw hwold))
            · rw [List.mem_singleton] at h1
              subst h1
              refine List.mem_append_right _ ?_
              refine List.mem_map.2 ⟨w, ?_, rfl⟩
              refine List.mem_filter.2 ⟨hw, ?_⟩
              simp only [decide_eq_true_eq]
              simpa using hwvnew
    · rw [if_neg hv]
      exact ⟨⟨S, E, hsteps, hvis, hadj⟩, hh1, hh2⟩

end TSPSpec

namespace TSPSpec

variable {α : Type} [LinearOrderedAddCommGroup α]

/-- An empty `heapMin` means an empty heap. -/
theorem heapMin_eq_none {l : List (α × ℕ × ℕ)} (h : heapMin l = none) :
    l = [] := by
  cases l with
  | nil => rfl
  | cons x xs => cases h

/-- With enough fuel, the Prim loop runs to completion: it stops only
because all vertices are visited or the heap is exhausted. -/
theorem prim_loop_exit (d : ℕ → ℕ → α) (n : ℕ) :
    ∀ (fuel : ℕ) (st : PrimState α),
      st.heap.length + (n + 1) * (n - st.visited.length) < fuel →
      n ≤ (prim_loop d n fuel st).visited.length ∨
        (prim_loop d n fuel st).heap = [] := by
  intro fuel
  induction fuel with
  | zero => intro st h; omega
  | succ f ih =>
    intro st hfuel
    rw [prim_loop]
    by_cases hv : st.visited.length < n
    · rw [if_pos hv]
      cases hm : heapMin st.heap with
      | none =>
        exact Or.inr (heapMin_eq_none hm)
      | some e =>
        dsimp only
        have hemem := heapMin_mem hm
        have hlen : (st.heap.erase e).length = st.heap.length - 1 :=
          List.length_erase_of_mem hemem
        have hpos : 1 ≤ st.heap.length := List.length_pos.2 (List.ne_nil_of_mem hemem)
        by_cases hc : st.visited.contains e.2.2
        · rw [if_pos hc]
          refine ih _ ?_
          simp only [hlen]
          omega
        · rw [if_neg hc]
          refine ih _ ?_
          dsimp only
          have hpush : (((pyRange 1 (n + 1)).filter
              (fun w => ¬ (st.visited ++ [e.2.2]).contains w))).length ≤ n := by
            have h1 := List.length_filter_le
              (fun w => decide (¬ (st.visited ++ [e.2.2]).contains w = true))
              (pyRange 1 (n + 1))
            have h2 : (pyRange 1 (n + 1)).length = n := by
              unfold pyRange
              rw [List.length_range']
              omega
            omega
          have hrw : n - st.visited.length = (n - (st.visited.length + 1)) + 1 := by
            omega
          have hmul : (n + 1) * (n - st.visited.length) =
              (n + 1) * (n - (st.visited.length + 1)) + (n + 1) := by
            rw [hrw, Nat.mul_add, Nat.mul_one]
          simp only [List.length_append, List.length_map, hlen,
            List.length_cons, List.length_nil, Nat.zero_add]
          omega
    · rw [if_neg hv]
      omega

/-- Characterization of `prim`: for every instance it performs a complete
Prim history whose visited list enumerates all labels, and returns the
adjacency structure built from the accepted edges. -/
theorem prim_spec (d : ℕ → ℕ → α) (n : ℕ) (hn : 1 ≤ n) :
    ∃ S E, PrimSteps d n S E ∧ S.Perm (pyRange 1 (n + 1)) ∧
      prim d n = buildAdj E := by
  have hinv0 : PrimInv d n ⟨[1], Adj.empty,
      (pyRange 2 (n + 1)).map fun v => (d 1 v, 1, v)⟩ := by
    refine ⟨⟨[1], [], PrimSteps.init, rfl, rfl⟩, ?_, ?_⟩
    · intro t ht
      obtain ⟨v, hvr, hvt⟩ := List.mem_map.1 ht
      subst hvt
      refine ⟨rfl, List.mem_singleton.2 rfl, ?_⟩
      show v ∈ pyRange 1 (n + 1)
      unfold pyRange at hvr ⊢
      rw [List.mem_range'] at hvr ⊢
      obtain ⟨i, hi, hv⟩ := hvr
      exact ⟨i + 1, by omega, by omega⟩
    · intro u w hu hw hwv
      rw [List.mem_singleton] at hu
      subst hu
      refine List.mem_map.2 ⟨w, ?_, rfl⟩
      unfold pyRange at hw ⊢
      rw [List.mem_range'] at hw ⊢
      obtain ⟨i, hi, hv⟩ := hw
      have hw1 : w ≠ 1 := by
        intro hmm
        subst hmm
        exact hwv (List.mem_singleton.2 rfl)
      exact ⟨i - 1, by omega, by omega⟩
  have hpres := prim_loop_pres d n (prim_fuel n) _ hinv0
  have hexit := prim_loop_exit d n (prim_fuel n)
    ⟨[1], Adj.empty, (pyRange 2 (n + 1)).map fun v => (d 1 v, 1, v)⟩ (by
    show ((pyRange 2 (n + 1)).map fun v => ((d 1 v, 1, v) : α × ℕ × ℕ)).length +
        (n + 1) * (n - ([1] : List ℕ).length) < prim_fuel n
    rw [List.length_map]
    have h2 : (pyRange 2 (n + 1)).length = n - 1 := by
      unfold pyRange
      rw [List.length_range']
      omega
    have hmul : (n + 1) * (n - 1) + (n + 1) = (n + 1) * n := by
      obtain ⟨m, rfl⟩ : ∃ m, n = m + 1 := ⟨n - 1, by omega⟩
      simp only [Nat.add_sub_cancel]
      ring
    have h4 : (n + 1) * n = n * n + n := by ring
    unfold prim_fuel
    simp only [List.length_cons, List.length_nil, Nat.zero_add]
    omega)
  obtain ⟨⟨S, E, hsteps, hvis, hadj⟩, hh1, hh2⟩ := hpres
  refine ⟨S, E, hsteps, ?_, hadj⟩
  have hnd := primSteps_nodup hsteps
  have hsub : ∀ x ∈ S, x ∈ pyRange 1 (n + 1) := primSteps_subset hn hsteps
  have hrlen : (pyRange 1 (n + 1)).length = n := by
    unfold pyRange
    rw [List.length_range']
    omega
  have hsubp : S.Subperm (pyRange 1 (n + 1)) := hnd.subperm hsub
  rcases hexit with hlen | hempty
  · refine hsubp.perm_of_length_le ?_
    rw [hrlen, ← hvis]
    exact hlen
  · have hall : ∀ w ∈ pyRange 1 (n + 1), w ∈ S := by
      intro w hw
      by_contra hws
      have h1S : (1 : ℕ) ∈ S := primSteps_one_mem hsteps
      have := hh2 1 w (hvis ▸ h1S) hw (hvis ▸ hws)
      rw [hempty] at this
      cases this
    refine hsubp.perm_of_length_le ?_
    rw [hrlen]
    have : (pyRange 1 (n + 1)).Subperm S :=
      (List.nodup_range' 1 n).subperm hall
    have h5 := this.length_le
    omega

end TSPSpec

namespace TSPSpec

variable {α : Type} [LinearOrderedAddCommGroup α]

/-! ### Phase 2: rose trees representing the MST adjacency

The adjacency that Prim builds is an ordered rooted tree: the root's
neighbor list is its children in insertion order, every other vertex's
neighbor list is its parent followed by its children.  `RTree`/`RForest`
make this explicit; `ReprT` states the correspondence with an `Adj`. -/

mutual
inductive RTree : Type where
  | node : ℕ → RForest → RTree
inductive RForest : Type where
  | nil : RForest
  | cons : RTree → RForest → RForest
end

/-- Label of the root. -/
def RTree.label : RTree → ℕ
  | .node a _ => a

mutual
/-- Preorder vertex list of a tree. -/
def RTree.preorder : RTree → List ℕ
  | .node a cs => a :: cs.preorder
/-- Concatenated preorders of a forest. -/
def RForest.preorder : RForest → List ℕ
  | .nil => []
  | .cons t ts => t.preorder ++ ts.preorder
end

mutual
/-- Total edge weight of a tree. -/
def RTree.weight (d : ℕ → ℕ → α) : RTree → α
  | .node a cs => cs.weight d a
/-- Total weight of a forest hanging from parent `a` (including the
edges from `a` to the roots). -/
def RForest.weight (d : ℕ → ℕ → α) (a : ℕ) : RForest → α
  | .nil => 0
  | .cons t ts => d a t.label + t.weight d + ts.weight d a
end

/-- Root labels of a forest, in order. -/
def RForest.labels : RForest → List ℕ
  | .nil => []
  | .cons t ts => t.label :: ts.labels

/-- Append a tree at the end of a forest. -/
def RForest.snoc : RForest → RTree → RForest
  | .nil, s => .cons s .nil
  | .cons t ts, s => .cons t (ts.snoc s)

mutual
/-- Attach the fresh leaf `v` as last child of the vertex labelled `u`. -/
def RTree.addLeaf (u v : ℕ) : RTree → RTree
  | .node a cs =>
    if a = u then .node a ((cs.addLeaf u v).snoc (.node v .nil))
    else .node a (cs.addLeaf u v)
/-- Forest version of `RTree.addLeaf`. -/
def RForest.addLeaf (u v : ℕ) : RForest → RForest
  | .nil => .nil
  | .cons t ts => .cons (t.addLeaf u v) (ts.addLeaf u v)
end

mutual
/-- Correspondence of a tree with an adjacency structure: the neighbor
list of each vertex is its parent (`p = 0` meaning none) followed by its
children in order. -/
def ReprT (A : Adj) : RTree → ℕ → Prop
  | .node a cs, p =>
    A.val a = (if p = 0 then [] else [p]) ++ cs.labels ∧ ReprF A a cs
/-- Forest version of `ReprT`. -/
def ReprF (A : Adj) (a : ℕ) : RForest → Prop
  | .nil => True
  | .cons t ts => ReprT A t a ∧ ReprF A a ts
end

/-- The preorder of a tree starts with its label. -/
theorem RTree.preorder_eq (t : RTree) :
    t.preorder = t.label :: (match t with | .node _ cs => cs.preorder) := by
  cases t
  rfl

/-- Preorders of trees are nonempty. -/
theorem RTree.preorder_ne_nil (t : RTree) : t.preorder ≠ [] := by
  cases t with
  | node a cs => exact List.cons_ne_nil a cs.preorder

/-- Labels of a snoc. -/
theorem RForest.labels_snoc : ∀ (ts : RForest) (s : RTree),
    (ts.snoc s).labels = ts.labels ++ [s.label]
  | .nil, s => rfl
  | .cons t ts, s => by
    show t.label :: (ts.snoc s).labels = (t.label :: ts.labels) ++ [s.label]
    rw [RForest.labels_snoc ts s]
    rfl

/-- Preorder of a snoc. -/
theorem RForest.preorder_snoc : ∀ (ts : RForest) (s : RTree),
    (ts.snoc s).preorder = ts.preorder ++ s.preorder
  | .nil, s => by
    simp [RForest.preorder, RForest.snoc]
  | .cons t ts, s => by
    show t.preorder ++ (ts.snoc s).preorder = (t.preorder ++ ts.preorder) ++ s.preorder
    rw [RForest.preorder_snoc ts s, List.append_assoc]

/-- Weight of a snoc. -/
theorem RForest.weight_snoc (d : ℕ → ℕ → α) : ∀ (ts : RForest) (a : ℕ) (s : RTree),
    (ts.snoc s).weight d a = ts.weight d a + (d a s.label + s.weight d)
  | .nil, a, s => by
    show d a s.label + s.weight d + (0:α) = (0:α) + (d a s.label + s.weight d)
    rw [add_zero, zero_add]
  | .cons t ts, a, s => by
    show d a t.label + t.weight d + (ts.snoc s).weight d a =
      d a t.label + t.weight d + ts.weight d a + (d a s.label + s.weight d)
    rw [RForest.weight_snoc d ts a s]
    abel

/-- The labels of a forest are members of its preorder. -/
theorem RForest.labels_subset : ∀ (ts : RForest), ∀ x ∈ ts.labels, x ∈ ts.preorder
  | .nil, x, hx => absurd hx (List.not_mem_nil x)
  | .cons t ts, x, hx => by
    rcases List.mem_cons.1 hx with rfl | h
    · show t.label ∈ t.preorder ++ ts.preorder
      refine List.mem_append_left _ ?_
      rw [RTree.preorder_eq t]
      exact List.mem_cons_self _ _
    · exact List.mem_append_right _ (RForest.labels_subset ts x h)

/-- Labels after `addLeaf` are unchanged. -/
theorem RTree.label_addLeaf (u v : ℕ) (t : RTree) :
    (t.addLeaf u v).label = t.label := by
  cases t with
  | node a cs =>
    show (if a = u then RTree.node a ((cs.addLeaf u v).snoc (.node v .nil))
      else RTree.node a (cs.addLeaf u v)).label = a
    by_cases h : a = u
    · rw [if_pos h]; rfl
    · rw [if_neg h]; rfl

/-- Root labels of a forest after `addLeaf` are unchanged. -/
theorem RForest.labels_addLeaf (u v : ℕ) : ∀ ts : RForest,
    (ts.addLeaf u v).labels = ts.labels
  | .nil => rfl
  | .cons t ts => by
    show (t.addLeaf u v).label :: (ts.addLeaf u v).labels = t.label :: ts.labels
    rw [RTree.label_addLeaf, RForest.labels_addLeaf u v ts]

mutual
/-- Attaching to a vertex outside a tree does not change it. -/
theorem RTree.addLeaf_id (u v : ℕ) : ∀ (t : RTree), u ∉ t.preorder →
    t.addLeaf u v = t
  | .node a cs, h => by
    have ha : a ≠ u := by
      intro hmm
      subst hmm
      exact h (List.mem_cons_self _ _)
    have hcs : u ∉ cs.preorder := fun hmm => h (List.mem_cons_of_mem a hmm)
    show (if a = u then RTree.node a ((cs.addLeaf u v).snoc (.node v .nil))
      else RTree.node a (cs.addLeaf u v)) = RTree.node a cs
    rw [if_neg ha, RForest.addLeaf_idF u v cs hcs]
/-- Attaching to a vertex outside a forest does not change it. -/
theorem RForest.addLeaf_idF (u v : ℕ) : ∀ (ts : RForest), u ∉ ts.preorder →
    ts.addLeaf u v = ts
  | .nil, _ => rfl
  | .cons t ts, h => by
    have ht : u ∉ t.preorder := fun hmm =>
      h (List.mem_append_left _ hmm)
    have hts : u ∉ ts.preorder := fun hmm =>
      h (List.mem_append_right _ hmm)
    show RForest.cons (t.addLeaf u v) (ts.addLeaf u v) = RForest.cons t ts
    rw [RTree.addLeaf_id u v t ht, RForest.addLeaf_idF u v ts hts]
end

end TSPSpec

namespace TSPSpec

variable {α : Type} [LinearOrderedAddCommGroup α]

/-- Touching a key never changes the value map. -/
theorem adj_touch_val (a : Adj) (u : ℕ) : (a.touch u).val = a.val := by
  unfold Adj.touch
  by_cases h : a.keys.contains u
  · rw [if_pos h]
  · rw [if_neg h]

/-- Appending to a key's list, read back at that key. -/
theorem adj_append_val_self (a : Adj) (u x : ℕ) :
    (a.append u x).val u = a.val u ++ [x] := by
  show (if u = u then (a.touch u).val u ++ [x] else (a.touch u).val u) = _
  rw [if_pos rfl, adj_touch_val]

/-- Appending to a key's list, read back elsewhere. -/
theorem adj_append_val_other (a : Adj) (u x w : ℕ) (h : w ≠ u) :
    (a.append u x).val w = a.val w := by
  show (if w = u then (a.touch u).val u ++ [x] else (a.touch u).val w) = _
  rw [if_neg h, adj_touch_val]

/-- Effect of `addEdge` on the first endpoint's list. -/
theorem addEdge_val_fst (a : Adj) (u v : ℕ) (huv : u ≠ v) :
    (a.addEdge u v).val u = a.val u ++ [v] := by
  unfold Adj.addEdge
  rw [adj_append_val_other _ _ _ _ huv, adj_append_val_self]

/-- Effect of `addEdge` on the second endpoint's list. -/
theorem addEdge_val_snd (a : Adj) (u v : ℕ) (huv : u ≠ v) :
    (a.addEdge u v).val v = a.val v ++ [u] := by
  unfold Adj.addEdge
  rw [adj_append_val_self, adj_append_val_other _ _ _ _ (Ne.symm huv)]

/-- Effect of `addEdge` away from both endpoints. -/
theorem addEdge_val_other (a : Adj) (u v w : ℕ) (h1 : w ≠ u) (h2 : w ≠ v) :
    (a.addEdge u v).val w = a.val w := by
  unfold Adj.addEdge
  rw [adj_append_val_other _ _ _ _ h2, adj_append_val_other _ _ _ _ h1]

mutual
/-- The tree–adjacency correspondence only looks at values inside the
tree's vertex set. -/
theorem ReprT_frame (A A' : Adj) : ∀ (t : RTree) (p : ℕ),
    (∀ w ∈ t.preorder, A'.val w = A.val w) → ReprT A t p → ReprT A' t p
  | .node a cs, p, hw, hr => by
    obtain ⟨h1, h2⟩ := hr
    refine ⟨?_, ReprF_frame A A' cs a
      (fun w hmem => hw w (List.mem_cons_of_mem a hmem)) h2⟩
    rw [hw a (List.mem_cons_self _ _), h1]
/-- Forest version of `ReprT_frame`. -/
theorem ReprF_frame (A A' : Adj) : ∀ (ts : RForest) (a : ℕ),
    (∀ w ∈ ts.preorder, A'.val w = A.val w) → ReprF A a ts → ReprF A' a ts
  | .nil, _, _, _ => trivial
  | .cons t ts, a, hw, hr => by
    obtain ⟨h1, h2⟩ := hr
    exact ⟨ReprT_frame A A' t a
        (fun w hmem => hw w (List.mem_append_left _ hmem)) h1,
      ReprF_frame A A' ts a
        (fun w hmem => hw w (List.mem_append_right _ hmem)) h2⟩
end

/-- `snoc` preserves the forest correspondence. -/
theorem ReprF_snoc (A : Adj) (a : ℕ) (s : RTree) (hs : ReprT A s a) :
    ∀ (cs : RForest), ReprF A a cs → ReprF A a (cs.snoc s)
  | .nil, _ => ⟨hs, trivial⟩
  | .cons t ts, hr => by
    obtain ⟨h1, h2⟩ := hr
    exact ⟨h1, ReprF_snoc A a s hs ts h2⟩

mutual
/-- Attaching a fresh leaf `v` below `u` transforms the correspondence
along `addEdge u v`. -/
theorem ReprT_addLeaf (A : Adj) (u v : ℕ) (huv : u ≠ v) (hAv : A.val v = []) :
    ∀ (t : RTree) (p : ℕ), ReprT A t p → t.preorder.Nodup →
      v ∉ t.preorder → p ≠ v → 0 ∉ t.preorder →
      ReprT (A.addEdge u v) (t.addLeaf u v) p
  | .node a cs, p, hr, hnd, hv, hpv, h0 => by
    obtain ⟨h1, h2⟩ := hr
    obtain ⟨hacs, hndcs⟩ := List.nodup_cons.1 hnd
    have hva : a ≠ v := by
      intro hmm
      exact hv (hmm ▸ List.mem_cons_self _ _)
    have hvcs : v ∉ cs.preorder := fun hmm => hv (List.mem_cons_of_mem a hmm)
    have h0cs : 0 ∉ cs.preorder := fun hmm => h0 (List.mem_cons_of_mem a hmm)
    by_cases hau : a = u
    · subst hau
      have hcsid : cs.addLeaf a v = cs := RForest.addLeaf_idF a v cs hacs
      show ReprT (A.addEdge a v)
        (if a = a then RTree.node a ((cs.addLeaf a v).snoc (.node v .nil))
         else RTree.node a (cs.addLeaf a v)) p
      rw [if_pos rfl, hcsid]
      refine ⟨?_, ?_⟩
      · show (A.addEdge a v).val a =
          (if p = 0 then [] else [p]) ++ (cs.snoc (.node v .nil)).labels
        rw [addEdge_val_fst A a v huv, h1, RForest.labels_snoc]
        rw [List.append_assoc]
        rfl
      · have hfr : ReprF (A.addEdge a v) a cs := by
          refine ReprF_frame A _ cs a ?_ h2
          intro w hmem
          have hwa : w ≠ a := fun hmm => hacs (hmm ▸ hmem)
          have hwv : w ≠ v := fun hmm => hvcs (hmm ▸ hmem)
          exact addEdge_val_other A a v w hwa hwv
        have hleaf : ReprT (A.addEdge a v) (.node v .nil) a := by
          refine ⟨?_, trivial⟩
          show (A.addEdge a v).val v = (if a = 0 then [] else [a]) ++ RForest.nil.labels
          have ha0 : a ≠ 0 := by
            intro hmm
            exact h0 (hmm ▸ List.mem_cons_self _ _)
          rw [addEdge_val_snd A a v huv, hAv, if_neg ha0]
          rfl
        exact ReprF_snoc _ a (.node v .nil) hleaf cs hfr
    · show ReprT (A.addEdge u v)
        (if a = u then RTree.node a ((cs.addLeaf u v).snoc (.node v .nil))
         else RTree.node a (cs.addLeaf u v)) p
      rw [if_neg hau]
      refine ⟨?_, ?_⟩
      · show (A.addEdge u v).val a =
          (if p = 0 then [] else [p]) ++ (cs.addLeaf u v).labels
        rw [addEdge_val_other A u v a hau hva, RForest.labels_addLeaf, h1]
      · exact ReprF_addLeaf A u v huv hAv cs a h2 hndcs hvcs hva hacs h0cs
/-- Forest version of `ReprT_addLeaf`. -/
theorem ReprF_addLeaf (A : Adj) (u v : ℕ) (huv : u ≠ v) (hAv : A.val v = []) :
    ∀ (ts : RForest) (a : ℕ), ReprF A a ts → ts.preorder.Nodup →
      v ∉ ts.preorder → a ≠ v → a ∉ ts.preorder → 0 ∉ ts.preorder →
      ReprF (A.addEdge u v) a (ts.addLeaf u v)
  | .nil, _, _, _, _, _, _, _ => trivial
  | .cons t ts, a, hr, hnd, hv, hav, ha, h0 => by
    obtain ⟨h1, h2⟩ := hr
    rcases List.nodup_append.1 hnd with ⟨hnd1, hnd2, -⟩
    exact ⟨ReprT_addLeaf A u v huv hAv t a h1 hnd1
        (fun hmm => hv (List.mem_append_left _ hmm)) hav
        (fun hmm => h0 (List.mem_append_left _ hmm)),
      ReprF_addLeaf A u v huv hAv ts a h2 hnd2
        (fun hmm => hv (List.mem_append_right _ hmm)) hav
        (fun hmm => ha (List.mem_append_right _ hmm))
        (fun hmm => h0 (List.mem_append_right _ hmm))⟩
end

end TSPSpec

namespace TSPSpec

variable {α : Type} [LinearOrderedAddCommGroup α]

mutual
/-- Attaching a leaf below a tree vertex adds that leaf to the preorder. -/
theorem RTree.preorder_addLeaf (u v : ℕ) : ∀ (t : RTree), t.preorder.Nodup →
    u ∈ t.preorder → (t.addLeaf u v).preorder.Perm (v :: t.preorder)
  | .node a cs, hnd, hu => by
    obtain ⟨hacs, hndcs⟩ := List.nodup_cons.1 hnd
    by_cases hau : a = u
    · subst hau
      have hcsid : cs.addLeaf a v = cs := RForest.addLeaf_idF a v cs hacs
      show (if a = a then RTree.node a ((cs.addLeaf a v).snoc (.node v .nil))
        else RTree.node a (cs.addLeaf a v)).preorder.Perm (v :: a :: cs.preorder)
      rw [if_pos rfl, hcsid]
      show (a :: (cs.snoc (.node v .nil)).preorder).Perm (v :: a :: cs.preorder)
      rw [RForest.preorder_snoc]
      show (a :: (cs.preorder ++ [v])).Perm (v :: a :: cs.preorder)
      exact List.Perm.trans
        (List.Perm.cons a (List.perm_append_singleton v cs.preorder))
        (List.Perm.swap v a cs.preorder)
    · have hucs : u ∈ cs.preorder := by
        rcases List.mem_cons.1 hu with h | h
        · exact absurd h.symm hau
        · exact h
      show (if a = u then RTree.node a ((cs.addLeaf u v).snoc (.node v .nil))
        else RTree.node a (cs.addLeaf u v)).preorder.Perm (v :: a :: cs.preorder)
      rw [if_neg hau]
      show (a :: (cs.addLeaf u v).preorder).Perm (v :: a :: cs.preorder)
      exact List.Perm.trans
        (List.Perm.cons a (RForest.preorder_addLeafF u v cs hndcs hucs))
        (List.Perm.swap v a cs.preorder)
/-- Forest version of `RTree.preorder_addLeaf`. -/
theorem RForest.preorder_addLeafF (u v : ℕ) : ∀ (ts : RForest), ts.preorder.Nodup →
    u ∈ ts.preorder → (ts.addLeaf u v).preorder.Perm (v :: ts.preorder)
  | .nil, _, hu => absurd hu (List.not_mem_nil u)
  | .cons t ts, hnd, hu => by
    rcases List.nodup_append.1 hnd with ⟨hnd1, hnd2, hdisj⟩
    show ((t.addLeaf u v).preorder ++ (ts.addLeaf u v).preorder).Perm
      (v :: (t.preorder ++ ts.preorder))
    rcases List.mem_append.1 hu with h1 | h1
    · rw [RForest.addLeaf_idF u v ts (fun hmm => hdisj h1 hmm)]
      exact List.Perm.append_right ts.preorder (RTree.preorder_addLeaf u v t hnd1 h1)
    · rw [RTree.addLeaf_id u v t (fun hmm => hdisj hmm h1)]
      exact List.Perm.trans
        (List.Perm.append_left t.preorder (RForest.preorder_addLeafF u v ts hnd2 h1))
        List.perm_middle
end

mutual
/-- Attaching a leaf below a tree vertex adds the edge's weight. -/
theorem RTree.weight_addLeaf (d : ℕ → ℕ → α) (u v : ℕ) : ∀ (t : RTree),
    t.preorder.Nodup → u ∈ t.preorder →
    (t.addLeaf u v).weight d = t.weight d + d u v
  | .node a cs, hnd, hu => by
    obtain ⟨hacs, hndcs⟩ := List.nodup_cons.1 hnd
    by_cases hau : a = u
    · subst hau
      have hcsid : cs.addLeaf a v = cs := RForest.addLeaf_idF a v cs hacs
      show (if a = a then RTree.node a ((cs.addLeaf a v).snoc (.node v .nil))
        else RTree.node a (cs.addLeaf a v)).weight d = cs.weight d a + d a v
      rw [if_pos rfl, hcsid]
      show (cs.snoc (.node v .nil)).weight d a = cs.weight d a + d a v
      rw [RForest.weight_snoc]
      show cs.weight d a + (d a v + (0:α)) = cs.weight d a + d a v
      rw [add_zero]
    · have hucs : u ∈ cs.preorder := by
        rcases List.mem_cons.1 hu with h | h
        · exact absurd h.symm hau
        · exact h
      show (if a = u then RTree.node a ((cs.addLeaf u v).snoc (.node v .nil))
        else RTree.node a (cs.addLeaf u v)).weight d = cs.weight d a + d u v
      rw [if_neg hau]
      show (cs.addLeaf u v).weight d a = cs.weight d a + d u v
      exact RForest.weight_addLeafF d u v cs a hndcs hucs
/-- Forest version of `RTree.weight_addLeaf`. -/
theorem RForest.weight_addLeafF (d : ℕ → ℕ → α) (u v : ℕ) : ∀ (ts : RForest) (a : ℕ),
    ts.preorder.Nodup → u ∈ ts.preorder →
    (ts.addLeaf u v).weight d a = ts.weight d a + d u v
  | .nil, _, _, hu => absurd hu (List.not_mem_nil u)
  | .cons t ts, a, hnd, hu => by
    rcases List.nodup_append.1 hnd with ⟨hnd1, hnd2, hdisj⟩
    show d a (t.addLeaf u v).label + (t.addLeaf u v).weight d +
        (ts.addLeaf u v).weight d a
      = (d a t.label + t.weight d + ts.weight d a) + d u v
    rw [RTree.label_addLeaf]
    rcases List.mem_append.1 hu with h1 | h1
    · rw [RForest.addLeaf_idF u v ts (fun hmm => hdisj h1 hmm),
        RTree.weight_addLeaf d u v t hnd1 h1]
      abel
    · rw [RTree.addLeaf_id u v t (fun hmm => hdisj hmm h1),
        RForest.weight_addLeafF d u v ts a hnd2 h1]
      abel
end

end TSPSpec

namespace TSPSpec

variable {α : Type} [LinearOrderedAddCommGroup α]

/-- Vertex 0 (the absent-parent sentinel) is never visited. -/
theorem primSteps_zero_not_mem {d : ℕ → ℕ → α} {n : ℕ} {S : List ℕ}
    {E : List (ℕ × ℕ)} (h : PrimSteps d n S E) : 0 ∉ S := by
  induction h with
  | init =>
    intro hmm
    rw [List.mem_singleton] at hmm
    cases hmm
  | step S E u v _ _ hvr _ _ ih =>
    intro hmm
    rcases List.mem_append.1 hmm with h1 | h1
    · exact ih h1
    · rw [List.mem_singleton] at h1
      unfold pyRange at hvr
      rw [List.mem_range'] at hvr
      omega
  
/-- Both endpoints of every accepted edge are visited. -/
theorem primSteps_edge_endpoints {d : ℕ → ℕ → α} {n : ℕ} {S : List ℕ}
    {E : List (ℕ × ℕ)} (h : PrimSteps d n S E) :
    ∀ e ∈ E, e.1 ∈ S ∧ e.2 ∈ S := by
  induction h with
  | init => intro e he; cases he
  | step S E u v _ hu _ _ _ ih =>
    intro e he
    rcases List.mem_append.1 he with h1 | h1
    · obtain ⟨a1, a2⟩ := ih e h1
      exact ⟨List.mem_append_left _ a1, List.mem_append_left _ a2⟩
    · rw [List.mem_singleton] at h1
      subst h1
      exact ⟨List.mem_append_left _ hu,
        List.mem_append_right _ (List.mem_singleton.2 rfl)⟩

/-- Every Prim history is realized by an ordered rooted tree: its preorder
enumerates the visited list, the built adjacency represents it, untouched
vertices have empty neighbor lists, and its weight is the sum of the
accepted edges. -/
theorem primSteps_rtree {d : ℕ → ℕ → α} {n : ℕ} {S : List ℕ}
    {E : List (ℕ × ℕ)} (h : PrimSteps d n S E) :
    ∃ R : RTree, R.label = 1 ∧ R.preorder.Perm S ∧ ReprT (buildAdj E) R 0 ∧
      (∀ w, w ∉ S → (buildAdj E).val w = []) ∧
      R.weight d = (E.map fun e => d e.1 e.2).sum := by
  induction h with
  | init =>
    refine ⟨.node 1 .nil, rfl, List.Perm.refl _, ⟨rfl, trivial⟩, ?_, rfl⟩
    intro w _
    rfl
  | step S E u v hst hu hvr hv hcut ih =>
    obtain ⟨R, hlab, hperm, hrepr, hout, hwt⟩ := ih
    have hndS : S.Nodup := primSteps_nodup hst
    have hndR : R.preorder.Nodup := hperm.nodup_iff.2 hndS
    have huR : u ∈ R.preorder := hperm.mem_iff.2 hu
    have hvR : v ∉ R.preorder := fun hmm => hv (hperm.mem_iff.1 hmm)
    have h0S : (0:ℕ) ∉ S := primSteps_zero_not_mem hst
    have h0R : (0:ℕ) ∉ R.preorder := fun hmm => h0S (hperm.mem_iff.1 hmm)
    have hv1 : 1 ≤ v := by
      unfold pyRange at hvr
      rw [List.mem_range'] at hvr
      omega
    have huv : u ≠ v := fun hmm => hv (hmm ▸ hu)
    have h0v : (0:ℕ) ≠ v := by omega
    refine ⟨R.addLeaf u v, ?_, ?_, ?_, ?_, ?_⟩
    · rw [RTree.label_addLeaf]
      exact hlab
    · refine (RTree.preorder_addLeaf u v R hndR huR).trans ?_
      exact (List.Perm.cons v hperm).trans (List.perm_append_singleton v S).symm
    · rw [buildAdj_concat]
      exact ReprT_addLeaf (buildAdj E) u v huv (hout v hv) R 0 hrepr hndR hvR h0v h0R
    · intro w hw
      have hwS : w ∉ S := fun hmm => hw (List.mem_append_left _ hmm)
      have hwv : w ≠ v := fun hmm =>
        hw (hmm ▸ List.mem_append_right _ (List.mem_singleton.2 rfl))
      have hwu : w ≠ u := fun hmm => hwS (hmm ▸ hu)
      rw [buildAdj_concat]
      show ((buildAdj E).addEdge u v).val w = []
      rw [addEdge_val_other _ u v w hwu hwv]
      exact hout w hwS
    · rw [RTree.weight_addLeaf d u v R hndR huR, hwt, List.map_append,
        List.sum_append]
      show _ + _ = _ + (d u v + 0)
      rw [add_zero]

end TSPSpec

namespace TSPSpec

variable {α : Type} [LinearOrderedAddCommGroup α]

mutual
/-- The DFS of a represented tree, entered at its root with its parent,
returns exactly the tree's preorder (given enough fuel). -/
theorem dfs_reprT (A : Adj) : ∀ (t : RTree) (fuel p : ℕ), ReprT A t p →
    t.preorder.Nodup → p ∉ t.preorder → t.preorder.length ≤ fuel →
    dfs A fuel t.label p = t.preorder
  | .node a cs, fuel, p, hr, hnd, hp, hlen => by
    obtain ⟨h1, h2⟩ := hr
    obtain ⟨hacs, hndcs⟩ := List.nodup_cons.1 hnd
    cases fuel with
    | zero =>
      exact absurd hlen (by
        show ¬ (a :: cs.preorder).length ≤ 0
        simp)
    | succ f =>
      show a :: ((A.val a).filter (fun w => w ≠ p)).flatMap (fun w => dfs A f w a)
        = a :: cs.preorder
      have hpa : p ≠ a := fun hmm => hp (hmm ▸ List.mem_cons_self _ _)
      have hpcs : p ∉ cs.preorder := fun hmm => hp (List.mem_cons_of_mem a hmm)
      have hpre : ((if p = 0 then [] else [p]) : List ℕ).filter (fun w => w ≠ p)
          = [] := by
        by_cases hp0 : p = 0
        · rw [if_pos hp0]
          rfl
        · rw [if_neg hp0]
          simp
      have hlb : cs.labels.filter (fun w => w ≠ p) = cs.labels := by
        rw [List.filter_eq_self]
        intro x hx
        have hxc : x ∈ cs.preorder := RForest.labels_subset cs x hx
        have hxp : x ≠ p := fun hmm => hpcs (hmm ▸ hxc)
        exact decide_eq_true hxp
      rw [h1, List.filter_append, hpre, hlb, List.nil_append]
      refine congrArg (List.cons a) ?_
      refine dfs_reprF A cs f a h2 hndcs hacs ?_
      have : (a :: cs.preorder).length ≤ f + 1 := hlen
      rw [List.length_cons] at this
      omega
/-- Forest version of `dfs_reprT`: mapping DFS over the root labels of a
represented forest concatenates to the forest's preorder. -/
theorem dfs_reprF (A : Adj) : ∀ (ts : RForest) (fuel a : ℕ), ReprF A a ts →
    ts.preorder.Nodup → a ∉ ts.preorder → ts.preorder.length ≤ fuel →
    ts.labels.flatMap (fun w => dfs A fuel w a) = ts.preorder
  | .nil, _, _, _, _, _, _ => rfl
  | .cons t ts, fuel, a, hr, hnd, ha, hlen => by
    obtain ⟨h1, h2⟩ := hr
    rcases List.nodup_append.1 hnd with ⟨hnd1, hnd2, -⟩
    have hat : a ∉ t.preorder := fun hmm => ha (List.mem_append_left _ hmm)
    have hats : a ∉ ts.preorder := fun hmm => ha (List.mem_append_right _ hmm)
    have hlen' : (t.preorder ++ ts.preorder).length ≤ fuel := hlen
    rw [List.length_append] at hlen'
    show (t.label :: ts.labels).flatMap (fun w => dfs A fuel w a)
      = t.preorder ++ ts.preorder
    rw [List.flatMap_cons, dfs_reprT A t fuel a h1 hnd1 hat (by omega),
      dfs_reprF A ts fuel a h2 hnd2 hats (by omega)]
end

/-- Splitting `path_length` at an interior vertex. -/
theorem path_length_split (d : ℕ → ℕ → α) (y : ℕ) (ys : List ℕ) :
    ∀ xs : List ℕ, path_length d (xs ++ y :: ys)
      = path_length d (xs ++ [y]) + path_length d (y :: ys)
  | [] => by
    show path_length d (y :: ys) = 0 + path_length d (y :: ys)
    rw [zero_add]
  | [x] => by
    show d x y + path_length d (y :: ys) = (d x y + 0) + path_length d (y :: ys)
    rw [add_zero]
  | x1 :: x2 :: rest => by
    show d x1 x2 + path_length d ((x2 :: rest) ++ y :: ys)
      = (d x1 x2 + path_length d ((x2 :: rest) ++ [y])) + path_length d (y :: ys)
    rw [path_length_split d y ys (x2 :: rest), add_assoc]

/-- Replacing the final vertex of a walk by a detour through `b` can only
lengthen it (triangle inequality). -/
theorem path_length_detour (d : ℕ → ℕ → α)
    (htri : ∀ i j k, d i k ≤ d i j + d j k) (b y : ℕ) :
    ∀ xs : List ℕ, xs ≠ [] →
      path_length d (xs ++ [y]) ≤ path_length d (xs ++ [b]) + d b y
  | [], h => absurd rfl h
  | [x], _ => by
    show d x y + 0 ≤ (d x b + 0) + d b y
    rw [add_zero, add_zero]
    exact htri x b y
  | x1 :: x2 :: rest, _ => by
    show d x1 x2 + path_length d ((x2 :: rest) ++ [y])
      ≤ (d x1 x2 + path_length d ((x2 :: rest) ++ [b])) + d b y
    rw [add_assoc]
    exact add_le_add_left
      (path_length_detour d htri b y (x2 :: rest) (List.cons_ne_nil _ _)) (d x1 x2)

/-- Shortcutting a closed visit through `a` between two walk segments can
only shorten the walk (triangle inequality). -/
theorem path_length_shortcut (d : ℕ → ℕ → α)
    (htri : ∀ i j k, d i k ≤ d i j + d j k) (a : ℕ) (xs ys : List ℕ)
    (hxs : xs ≠ []) (hys : ys ≠ []) :
    path_length d (xs ++ ys) ≤
      path_length d (xs ++ [a]) + path_length d (a :: ys) := by
  cases ys with
  | nil => exact absurd rfl hys
  | cons y ys' =>
    rw [path_length_split d y ys' xs]
    have h2 : path_length d (a :: y :: ys') = d a y + path_length d (y :: ys') :=
      rfl
    rw [h2, ← add_assoc]
    exact add_le_add_right (path_length_detour d htri a y xs hxs) _

mutual
/-- The closed preorder walk of a tree entered from `a` costs at most
twice the connection edge plus twice the tree weight. -/
theorem walk_bound_t (d : ℕ → ℕ → α) (hsym : ∀ i j, d i j = d j i)
    (hzero : ∀ i, d i i = 0) (htri : ∀ i j k, d i k ≤ d i j + d j k) :
    ∀ (t : RTree) (a : ℕ),
      path_length d (a :: t.preorder ++ [a]) ≤
        (d a t.label + t.weight d) + (d a t.label + t.weight d)
  | .node b cs, a => by
    have h1 : path_length d ((a :: b :: cs.preorder) ++ [a]) ≤
        path_length d ((a :: b :: cs.preorder) ++ [b]) + d b a :=
      path_length_detour d htri b a _ (List.cons_ne_nil _ _)
    have h2 : path_length d ((a :: b :: cs.preorder) ++ [b]) =
        d a b + path_length d (b :: cs.preorder ++ [b]) := rfl
    have h3 : path_length d (b :: cs.preorder ++ [b]) ≤
        cs.weight d b + cs.weight d b :=
      walk_bound_f d hsym hzero htri cs b
    show path_length d ((a :: b :: cs.preorder) ++ [a]) ≤
      (d a b + cs.weight d b) + (d a b + cs.weight d b)
    calc path_length d ((a :: b :: cs.preorder) ++ [a])
        ≤ path_length d ((a :: b :: cs.preorder) ++ [b]) + d b a := h1
      _ = (d a b + path_length d (b :: cs.preorder ++ [b])) + d b a := by rw [h2]
      _ ≤ (d a b + (cs.weight d b + cs.weight d b)) + d b a :=
          add_le_add_right (add_le_add_left h3 _) _
      _ = (d a b + cs.weight d b) + (d a b + cs.weight d b) := by
          rw [hsym b a]
          abel
/-- The closed preorder walk of a forest from its parent `a` costs at most
twice the forest weight. -/
theorem walk_bound_f (d : ℕ → ℕ → α) (hsym : ∀ i j, d i j = d j i)
    (hzero : ∀ i, d i i = 0) (htri : ∀ i j k, d i k ≤ d i j + d j k) :
    ∀ (ts : RForest) (a : ℕ),
      path_length d (a :: ts.preorder ++ [a]) ≤ ts.weight d a + ts.weight d a
  | .nil, a => by
    show d a a + 0 ≤ (0:α) + 0
    rw [hzero a]
  | .cons t ts, a => by
    show path_length d (a :: ((t.preorder ++ ts.preorder) ++ [a])) ≤
      (d a t.label + t.weight d + ts.weight d a) +
        (d a t.label + t.weight d + ts.weight d a)
    rw [List.append_assoc t.preorder ts.preorder [a]]
    show path_length d ((a :: t.preorder) ++ (ts.preorder ++ [a])) ≤ _
    have h1 := path_length_shortcut d htri a (a :: t.preorder)
      (ts.preorder ++ [a]) (List.cons_ne_nil _ _) (by simp)
    have h3 := walk_bound_t d hsym hzero htri t a
    have h4 := walk_bound_f d hsym hzero htri ts a
    calc path_length d ((a :: t.preorder) ++ (ts.preorder ++ [a]))
        ≤ path_length d ((a :: t.preorder) ++ [a]) +
            path_length d (a :: (ts.preorder ++ [a])) := h1
      _ ≤ ((d a t.label + t.weight d) + (d a t.label + t.weight d)) +
            (ts.weight d a + ts.weight d a) := add_le_add h3 h4
      _ = (d a t.label + t.weight d + ts.weight d a) +
            (d a t.label + t.weight d + ts.weight d a) := by abel
end

end TSPSpec

namespace TSPSpec

variable {α : Type} [LinearOrderedAddCommGroup α]

/-- The closed preorder tour of a tree (from its root back to its root)
costs at most twice the tree weight. -/
theorem walk_bound_root (d : ℕ → ℕ → α) (hsym : ∀ i j, d i j = d j i)
    (hzero : ∀ i, d i i = 0) (htri : ∀ i j k, d i k ≤ d i j + d j k)
    (t : RTree) :
    path_length d (t.preorder ++ [t.label]) ≤ t.weight d + t.weight d := by
  cases t with
  | node b cs =>
    show path_length d ((b :: cs.preorder) ++ [b]) ≤ cs.weight d b + cs.weight d b
    exact walk_bound_f d hsym hzero htri cs b

/-- `approx_tsp_tour` returns at most twice the total weight of the edges
of some complete Prim history. -/
theorem approx_le_twice_primweight (d : ℕ → ℕ → α) (n : ℕ) (hn : 1 ≤ n)
    (hsym : ∀ i j, d i j = d j i) (hzero : ∀ i, d i i = 0)
    (htri : ∀ i j k, d i k ≤ d i j + d j k) :
    ∃ S E, PrimSteps d n S E ∧ S.Perm (pyRange 1 (n + 1)) ∧
      (approx_tsp_tour n d).1 ≤
        (E.map fun e => d e.1 e.2).sum + (E.map fun e => d e.1 e.2).sum := by
  obtain ⟨S, E, hsteps, hperm, hadj⟩ := prim_spec d n hn
  obtain ⟨R, hlab, hpre, hrepr, hout, hwt⟩ := primSteps_rtree hsteps
  refine ⟨S, E, hsteps, hperm, ?_⟩
  have hndS : S.Nodup := primSteps_nodup hsteps
  have hndR : R.preorder.Nodup := hpre.nodup_iff.2 hndS
  have h0R : (0:ℕ) ∉ R.preorder := fun hmm =>
    primSteps_zero_not_mem hsteps (hpre.mem_iff.1 hmm)
  have hlenS : S.length = n := by
    rw [hperm.length_eq]
    unfold pyRange
    rw [List.length_range']
    omega
  have hlenR : R.preorder.length ≤ n + 1 := by
    rw [hpre.length_eq, hlenS]
    omega
  have hdfs : dfs (prim d n) (n + 1) 1 0 = R.preorder := by
    rw [hadj]
    have h := dfs_reprT (buildAdj E) R (n + 1) 0 hrepr hndR h0R hlenR
    rw [hlab] at h
    exact h
  show path_length d (dfs (prim d n) (n + 1) 1 0 ++ [1]) ≤ _
  rw [hdfs, ← hlab]
  calc path_length d (R.preorder ++ [R.label])
      ≤ R.weight d + R.weight d := walk_bound_root d hsym hzero htri R
    _ = (E.map fun e => d e.1 e.2).sum + (E.map fun e => d e.1 e.2).sum := by
        rw [hwt]

end TSPSpec

namespace TSPSpec

variable {α : Type} [LinearOrderedAddCommGroup α]

/-! ### Minimality of Prim's tree: connectivity over edge lists -/

/-- Total weight of an edge list. -/
def wsum (d : ℕ → ℕ → α) (T : List (ℕ × ℕ)) : α :=
  (T.map fun e => d e.1 e.2).sum

/-- The undirected edge `{x, y}` occurs in the edge list. -/
def edgeIn (T : List (ℕ × ℕ)) (x y : ℕ) : Prop :=
  (x, y) ∈ T ∨ (y, x) ∈ T

/-- Connectivity in the undirected multigraph given by an edge list. -/
inductive Conn (T : List (ℕ × ℕ)) : ℕ → ℕ → Prop
  | refl (x : ℕ) : Conn T x x
  | cons {x y z : ℕ} : edgeIn T x y → Conn T y z → Conn T x z

theorem edgeIn_symm {T : List (ℕ × ℕ)} {x y : ℕ} (h : edgeIn T x y) :
    edgeIn T y x :=
  h.symm

theorem Conn.single {T : List (ℕ × ℕ)} {x y : ℕ} (h : edgeIn T x y) :
    Conn T x y :=
  .cons h (.refl y)

theorem Conn.trans {T : List (ℕ × ℕ)} {x y z : ℕ} (h1 : Conn T x y)
    (h2 : Conn T y z) : Conn T x z := by
  induction h1 with
  | refl => exact h2
  | cons e _ ih => exact .cons e (ih h2)

theorem Conn.symm {T : List (ℕ × ℕ)} {x y : ℕ} (h : Conn T x y) :
    Conn T y x := by
  induction h with
  | refl => exact .refl _
  | cons e _ ih => exact ih.trans (Conn.single (edgeIn_symm e))

theorem Conn.mono {T T' : List (ℕ × ℕ)}
    (hsub : ∀ x y, edgeIn T x y → edgeIn T' x y) {x y : ℕ} (h : Conn T x y) :
    Conn T' x y := by
  induction h with
  | refl => exact .refl _
  | cons e _ ih => exact .cons (hsub _ _ e) ih

/-- Vertex sequences that trace edges of `T` (nonempty by convention). -/
def IsWalk (T : List (ℕ × ℕ)) : List ℕ → Prop
  | [] => False
  | [_] => True
  | x :: y :: rest => edgeIn T x y ∧ IsWalk T (y :: rest)

theorem IsWalk.ne_nil {T : List (ℕ × ℕ)} : ∀ {p : List ℕ}, IsWalk T p → p ≠ []
  | [], h => absurd h not_false
  | _ :: _, _ => List.cons_ne_nil _ _

/-- Connected vertices are joined by a walk. -/
theorem conn_walk {T : List (ℕ × ℕ)} {x y : ℕ} (h : Conn T x y) :
    ∃ p, IsWalk T p ∧ p.head? = some x ∧ p.getLast? = some y := by
  induction h with
  | refl x => exact ⟨[x], trivial, rfl, rfl⟩
  | cons e _ ih =>
    obtain ⟨p, hw, hh, hl⟩ := ih
    cases p with
    | nil => cases hh
    | cons y0 rest =>
      have hy0 : y0 = _ := Option.some_injective _ hh
      subst hy0
      refine ⟨_ :: y0 :: rest, ⟨e, hw⟩, rfl, ?_⟩
      rw [List.getLast?_cons_cons]
      exact hl

/-- A walk connects its endpoints. -/
theorem walk_conn {T : List (ℕ × ℕ)} : ∀ {p : List ℕ}, IsWalk T p →
    ∀ {x y : ℕ}, p.head? = some x → p.getLast? = some y → Conn T x y
  | [], hw, _, _, _, _ => absurd hw not_false
  | [x0], _, _, _, hh, hl => by
    obtain rfl := Option.some_injective _ hh
    obtain rfl := Option.some_injective _ hl
    exact .refl x0
  | x0 :: y0 :: rest, hw, _, _, hh, hl => by
    obtain rfl := Option.some_injective _ hh
    rw [List.getLast?_cons_cons] at hl
    exact .cons hw.1 (walk_conn hw.2 rfl hl)

/-- Suffixes of walks are walks. -/
theorem IsWalk.suffix {T : List (ℕ × ℕ)} :
    ∀ (p q : List ℕ), IsWalk T (p ++ q) → q ≠ [] → IsWalk T q
  | [], _, hw, _ => hw
  | x :: p', q, hw, hq => by
    cases hpq : p' ++ q with
    | nil =>
      rcases List.append_eq_nil.1 hpq with ⟨-, h2⟩
      exact absurd h2 hq
    | cons r rest =>
      have hw' : IsWalk T (x :: r :: rest) := by
        rw [← hpq]
        exact hw
      have : IsWalk T (p' ++ q) := by
        rw [hpq]
        exact hw'.2
      exact IsWalk.suffix p' q this hq

/-- Nonempty front segments of walks are walks. -/
theorem IsWalk.front {T : List (ℕ × ℕ)} :
    ∀ (p q : List ℕ), IsWalk T (p ++ q) → p ≠ [] → IsWalk T p
  | [], _, _, hp => absurd rfl hp
  | [x], _, _, _ => trivial
  | x :: y :: p', q, hw, _ => by
    have hw' : IsWalk T (x :: y :: (p' ++ q)) := hw
    exact ⟨hw'.1, IsWalk.front (y :: p') q hw'.2 (List.cons_ne_nil _ _)⟩

/-- `getLast?` of an append with nonempty right part. -/
theorem getLast?_append_right {β : Type} (l2 : List β) (h : l2 ≠ []) :
    ∀ l1 : List β, (l1 ++ l2).getLast? = l2.getLast?
  | [] => rfl
  | a :: l1' => by
    show (a :: (l1' ++ l2)).getLast? = l2.getLast?
    have hne : l1' ++ l2 ≠ [] := fun hmm =>
      h (List.append_eq_nil.1 hmm).2
    cases hl : l1' ++ l2 with
    | nil => exact absurd hl hne
    | cons b rest =>
      rw [List.getLast?_cons_cons, ← hl]
      exact getLast?_append_right l2 h l1'

/-- `head?` of an append with nonempty left part. -/
theorem head?_append_left {β : Type} (l2 : List β) :
    ∀ l1 : List β, l1 ≠ [] → (l1 ++ l2).head? = l1.head?
  | [], h => absurd rfl h
  | a :: l1', _ => rfl

/-- Every walk contains a walk without repeated vertices between the same
endpoints. -/
theorem walk_dedup {T : List (ℕ × ℕ)} :
    ∀ (p : List ℕ), IsWalk T p →
      ∃ q, IsWalk T q ∧ q.Nodup ∧ q.head? = p.head? ∧ q.getLast? = p.getLast?
  | [], hw => absurd hw not_false
  | [x1], _ => ⟨[x1], trivial, List.nodup_singleton x1, rfl, rfl⟩
  | x1 :: y1 :: rest1, hw => by
    obtain ⟨q, hq, hnd, hh, hl⟩ := walk_dedup (y1 :: rest1) hw.2
    cases q with
    | nil => cases hh
    | cons y0 q' =>
      have hy0 : y0 = y1 := Option.some_injective _ hh
      subst hy0
      by_cases hx : x1 ∈ y0 :: q'
      · obtain ⟨s, t, hst⟩ := List.append_of_mem hx
        refine ⟨x1 :: t, ?_, ?_, rfl, ?_⟩
        · refine IsWalk.suffix s (x1 :: t) ?_ (List.cons_ne_nil _ _)
          rw [← hst]
          exact hq
        · refine List.Nodup.sublist ?_ hnd
          rw [hst]
          exact List.sublist_append_right s (x1 :: t)
        · rw [List.getLast?_cons_cons, ← hl, hst]
          exact (getLast?_append_right (x1 :: t) (List.cons_ne_nil _ _) s).symm
      · refine ⟨x1 :: y0 :: q', ⟨hw.1, hq⟩, ?_, rfl, ?_⟩
        · exact List.nodup_cons.2 ⟨hx, hnd⟩
        · rw [List.getLast?_cons_cons, List.getLast?_cons_cons, ← hl]

/-- A walk from inside a vertex set to outside it contains a first
crossing edge. -/
theorem walk_cross {T : List (ℕ × ℕ)} (S : List ℕ) :
    ∀ (p : List ℕ), IsWalk T p →
      ∀ x y, p.head? = some x → p.getLast? = some y → x ∈ S → y ∉ S →
      ∃ p1 a b p2, p = p1 ++ a :: b :: p2 ∧ a ∈ S ∧ b ∉ S ∧ edgeIn T a b
  | [], hw, _, _, _, _, _, _ => absurd hw not_false
  | [x0], _, x, y, hh, hl, hx, hy => by
    obtain rfl : x0 = x := Option.some_injective _ hh
    obtain rfl : x0 = y := Option.some_injective _ hl
    exact absurd hx hy
  | x0 :: y0 :: rest, hw, x, y, hh, hl, hx, hy => by
    obtain rfl : x0 = x := Option.some_injective _ hh
    rw [List.getLast?_cons_cons] at hl
    by_cases hy0 : y0 ∈ S
    · obtain ⟨p1, a, b, p2, hdec, ha, hb, he⟩ :=
        walk_cross S (y0 :: rest) hw.2 y0 y rfl hl hy0 hy
      exact ⟨x0 :: p1, a, b, p2, by rw [List.cons_append, hdec], ha, hb, he⟩
    · exact ⟨[], x0, y0, rest, rfl, hx, hy0, hw.1⟩

/-- Walks avoiding a vertex of the edge `f` survive into any edge list
that keeps every edge other than `f`. -/
theorem walk_avoid {T T' : List (ℕ × ℕ)} (f : ℕ × ℕ) (b : ℕ)
    (hb : f.1 = b ∨ f.2 = b)
    (hsub : ∀ g ∈ T, g ≠ f → g ∈ T') :
    ∀ p : List ℕ, IsWalk T p → b ∉ p → IsWalk T' p
  | [], hw, _ => hw
  | [_], _, _ => trivial
  | x :: y :: rest, hw, hbp => by
    have hxb : x ≠ b := fun hmm => hbp (hmm ▸ List.mem_cons_self _ _)
    have hyb : y ≠ b := fun hmm =>
      hbp (hmm ▸ List.mem_cons_of_mem x (List.mem_cons_self _ _))
    have hbrest : b ∉ y :: rest := fun hmm => hbp (List.mem_cons_of_mem x hmm)
    refine ⟨?_, walk_avoid f b hb hsub (y :: rest) hw.2 hbrest⟩
    have hne1 : (x, y) ≠ f := by
      intro hmm
      rcases hb with h | h
      · rw [← hmm] at h
        exact hxb h
      · rw [← hmm] at h
        exact hyb h
    have hne2 : (y, x) ≠ f := by
      intro hmm
      rcases hb with h | h
      · rw [← hmm] at h
        exact hyb h
      · rw [← hmm] at h
        exact hxb h
    rcases hw.1 with h | h
    · exact Or.inl (hsub _ h hne1)
    · exact Or.inr (hsub _ h hne2)

/-- Rerouting: if the endpoints of `f` stay connected in `T'` and every
other edge of `T` survives into `T'`, connectivity transfers. -/
theorem conn_reroute {T T' : List (ℕ × ℕ)} (f : ℕ × ℕ)
    (hkeep : ∀ g ∈ T, g ≠ f → g ∈ T')
    (hbridge : Conn T' f.1 f.2) :
    ∀ {x y : ℕ}, Conn T x y → Conn T' x y := by
  intro x y h
  induction h with
  | refl => exact .refl _
  | cons e _ ih =>
    rename_i x' y' z' _
    rcases e with h | h
    · by_cases hf : (x', y') = f
      · have h1 : Conn T' x' y' := by
          rw [show x' = f.1 from by rw [← hf], show y' = f.2 from by rw [← hf]]
          exact hbridge
        exact h1.trans ih
      · exact .cons (Or.inl (hkeep _ h hf)) ih
    · by_cases hf : (y', x') = f
      · have h1 : Conn T' y' x' := by
          rw [show y' = f.1 from by rw [← hf], show x' = f.2 from by rw [← hf]]
          exact hbridge
        exact h1.symm.trans ih
      · exact .cons (Or.inr (hkeep _ h hf)) ih

end TSPSpec

namespace TSPSpec

variable {α : Type} [LinearOrderedAddCommGroup α]

/-- A spanning connected edge list over the label range: vertex 1 reaches
every label, and all edges join two distinct labels in range. -/
def SpanConn (n : ℕ) (T : List (ℕ × ℕ)) : Prop :=
  (∀ w ∈ pyRange 1 (n + 1), Conn T 1 w) ∧
  (∀ e ∈ T, e.1 ∈ pyRange 1 (n + 1) ∧ e.2 ∈ pyRange 1 (n + 1) ∧ e.1 ≠ e.2)

theorem wsum_append (d : ℕ → ℕ → α) (T1 T2 : List (ℕ × ℕ)) :
    wsum d (T1 ++ T2) = wsum d T1 + wsum d T2 := by
  unfold wsum
  rw [List.map_append, List.sum_append]

theorem wsum_cons (d : ℕ → ℕ → α) (e : ℕ × ℕ) (T : List (ℕ × ℕ)) :
    wsum d (e :: T) = d e.1 e.2 + wsum d T := by
  unfold wsum
  rw [List.map_cons, List.sum_cons]

theorem wsum_singleton (d : ℕ → ℕ → α) (e : ℕ × ℕ) :
    wsum d [e] = d e.1 e.2 := by
  rw [wsum_cons]
  show d e.1 e.2 + 0 = d e.1 e.2
  rw [add_zero]

theorem wsum_perm (d : ℕ → ℕ → α) {T1 T2 : List (ℕ × ℕ)} (h : T1.Perm T2) :
    wsum d T1 = wsum d T2 :=
  (h.map _).sum_eq

theorem wsum_nonneg (d : ℕ → ℕ → α) (hnn : ∀ i j, 0 ≤ d i j)
    (T : List (ℕ × ℕ)) : 0 ≤ wsum d T := by
  show 0 ≤ (T.map fun e => d e.1 e.2).sum
  refine List.sum_nonneg ?_
  intro x hx
  obtain ⟨e, -, he⟩ := List.mem_map.1 hx
  rw [← he]
  exact hnn e.1 e.2

/-- Exchange argument: along any Prim history, the accepted edges can be
completed by leftover edges of any given spanning connected edge list,
without ever increasing the total weight. -/
theorem prim_exchange (d : ℕ → ℕ → α) (n : ℕ) (hn : 1 ≤ n)
    (hsym : ∀ i j, d i j = d j i)
    (T0 : List (ℕ × ℕ)) (hT0 : SpanConn n T0) :
    ∀ {S : List ℕ} {E : List (ℕ × ℕ)}, PrimSteps d n S E →
      ∃ R, SpanConn n (E ++ R) ∧ wsum d E + wsum d R ≤ wsum d T0 := by
  intro S E h
  induction h with
  | init =>
    refine ⟨T0, hT0, ?_⟩
    show wsum d [] + wsum d T0 ≤ wsum d T0
    rw [show wsum d ([] : List (ℕ × ℕ)) = 0 from rfl, zero_add]
  | step S E u v hst hu hvr hv hcut ih =>
    obtain ⟨R, ⟨hconn, hvalid⟩, hle⟩ := ih
    have hu_r : u ∈ pyRange 1 (n + 1) := primSteps_subset hn hst u hu
    have huv : u ≠ v := fun hmm => hv (hmm ▸ hu)
    -- there is a duplicate-free walk in E ++ R from u to v
    have hconn_uv : Conn (E ++ R) u v := (hconn u hu_r).symm.trans (hconn v hvr)
    obtain ⟨p0, hw0, hh0, hl0⟩ := conn_walk hconn_uv
    obtain ⟨q, hq, hndq, hhq, hlq⟩ := walk_dedup p0 hw0
    rw [hh0] at hhq
    rw [hl0] at hlq
    -- first edge of the walk crossing the cut (S, ·)
    obtain ⟨q1, a, b, q2, hdec, haS, hbS, hedge⟩ :=
      walk_cross S q hq u v hhq hlq hu hv
    -- the crossing edge as it is stored in E ++ R
    have hfspec : ∃ f : ℕ × ℕ, f ∈ E ++ R ∧ ((f = (a, b)) ∨ (f = (b, a))) := by
      rcases hedge with hm | hm
      · exact ⟨(a, b), hm, Or.inl rfl⟩
      · exact ⟨(b, a), hm, Or.inr rfl⟩
    obtain ⟨f, hfmem, hfval⟩ := hfspec
    have hfw : d f.1 f.2 = d a b := by
      rcases hfval with rfl | rfl
      · rfl
      · exact hsym b a
    have hb_r : b ∈ pyRange 1 (n + 1) := by
      obtain ⟨h1, h2, -⟩ := hvalid f hfmem
      rcases hfval with rfl | rfl
      · exact h2
      · exact h1
    -- the crossing edge cannot be one of Prim's edges
    have hfE : f ∉ E := by
      intro hmm
      obtain ⟨h1, h2⟩ := primSteps_edge_endpoints hst f hmm
      rcases hfval with rfl | rfl
      · exact hbS h2
      · exact hbS h1
    have hfR : f ∈ R := by
      rcases List.mem_append.1 hfmem with hmm | hmm
      · exact absurd hmm hfE
      · exact hmm
    -- split one copy of f off the leftover list
    obtain ⟨R', hRperm⟩ : ∃ R', R.Perm (f :: R') := ⟨_, List.perm_cons_erase hfR⟩
    have hRmem : ∀ g ∈ R, g ≠ f → g ∈ R' := by
      intro g hg hgf
      rcases List.mem_cons.1 (hRperm.mem_iff.1 hg) with h1 | h1
      · exact absurd h1 hgf
      · exact h1
    have hR'mem : ∀ g ∈ R', g ∈ R := by
      intro g hg
      exact hRperm.mem_iff.2 (List.mem_cons_of_mem f hg)
    have hkeep : ∀ g ∈ E ++ R, g ≠ f → g ∈ (E ++ [(u, v)]) ++ R' := by
      intro g hg hgf
      rcases List.mem_append.1 hg with h1 | h1
      · exact List.mem_append_left _ (List.mem_append_left _ h1)
      · exact List.mem_append_right _ (hRmem g h1 hgf)
    -- the walk decomposed around the crossing edge
    have hqdec : q = (q1 ++ [a]) ++ (b :: q2) := by
      rw [hdec, List.append_assoc]
      rfl
    have hbq1 : b ∉ q1 ++ [a] := by
      intro hmm
      rw [hdec] at hndq
      rcases List.nodup_append.1 hndq with ⟨-, hnd2, hdisj⟩
      rcases List.mem_append.1 hmm with h1 | h1
      · exact hdisj h1 (List.mem_cons_of_mem a (List.mem_cons_self _ _))
      · rw [List.mem_singleton] at h1
        have hax : a ∉ b :: q2 := (List.nodup_cons.1 hnd2).1
        exact hax (h1 ▸ List.mem_cons_self _ _)
    have haq2 : a ∉ b :: q2 := by
      rw [hdec] at hndq
      rcases List.nodup_append.1 hndq with ⟨-, hnd2, -⟩
      exact (List.nodup_cons.1 hnd2).1
    have hfb : f.1 = b ∨ f.2 = b := by
      rcases hfval with rfl | rfl
      · exact Or.inr rfl
      · exact Or.inl rfl
    have hfa : f.1 = a ∨ f.2 = a := by
      rcases hfval with rfl | rfl
      · exact Or.inl rfl
      · exact Or.inr rfl
    -- prefix and suffix of the walk survive into the new edge list
    have hwpre : IsWalk ((E ++ [(u, v)]) ++ R') (q1 ++ [a]) := by
      refine walk_avoid f b hfb hkeep (q1 ++ [a]) ?_ hbq1
      refine IsWalk.front (q1 ++ [a]) (b :: q2) ?_ (by simp)
      rw [← hqdec]
      exact hq
    have hwsuf : IsWalk ((E ++ [(u, v)]) ++ R') (b :: q2) := by
      refine walk_avoid f a hfa hkeep (b :: q2) ?_ haq2
      refine IsWalk.suffix (q1 ++ [a]) (b :: q2) ?_ (List.cons_ne_nil _ _)
      rw [← hqdec]
      exact hq
    -- endpoints of the two pieces
    have hh1 : (q1 ++ [a]).head? = some u := by
      have hx := head?_append_left (b :: q2) (q1 ++ [a]) (by simp)
      rw [← hqdec] at hx
      rw [← hx]
      exact hhq
    have hl1 : (q1 ++ [a]).getLast? = some a := by
      rw [getLast?_append_right [a] (by simp) q1]
      rfl
    have hl2 : (b :: q2).getLast? = some v := by
      have hx := getLast?_append_right (b :: q2) (List.cons_ne_nil _ _) (q1 ++ [a])
      rw [← hqdec] at hx
      rw [← hx]
      exact hlq
    have hconn_ua : Conn ((E ++ [(u, v)]) ++ R') u a := walk_conn hwpre hh1 hl1
    have hconn_bv : Conn ((E ++ [(u, v)]) ++ R') b v := walk_conn hwsuf rfl hl2
    have he_mem : (u, v) ∈ (E ++ [(u, v)]) ++ R' :=
      List.mem_append_left _ (List.mem_append_right _ (List.mem_singleton.2 rfl))
    have hab : Conn ((E ++ [(u, v)]) ++ R') a b :=
      (hconn_ua.symm).trans ((Conn.single (Or.inl he_mem)).trans hconn_bv.symm)
    have hbridge : Conn ((E ++ [(u, v)]) ++ R') f.1 f.2 := by
      rcases hfval with rfl | rfl
      · exact hab
      · exact hab.symm
    refine ⟨R', ⟨?_, ?_⟩, ?_⟩
    · intro w hwr
      exact conn_reroute f hkeep hbridge (hconn w hwr)
    · intro e he
      rcases List.mem_append.1 he with h1 | h1
      · rcases List.mem_append.1 h1 with h2 | h2
        · exact hvalid e (List.mem_append_left _ h2)
        · rw [List.mem_singleton] at h2
          subst h2
          exact ⟨hu_r, hvr, huv⟩
      · exact hvalid e (List.mem_append_right _ (hR'mem e h1))
    · have h9 : wsum d R = d f.1 f.2 + wsum d R' := by
        rw [wsum_perm d hRperm]
        exact wsum_cons d f R'
      calc wsum d (E ++ [(u, v)]) + wsum d R'
          = (wsum d E + d u v) + wsum d R' := by
            rw [wsum_append, wsum_singleton]
        _ ≤ (wsum d E + d f.1 f.2) + wsum d R' :=
            add_le_add_right
              (add_le_add_left ((hcut a b haS hb_r hbS).trans_eq hfw.symm) _) _
        _ = wsum d E + (d f.1 f.2 + wsum d R') := by rw [add_assoc]
        _ = wsum d E + wsum d R := by rw [← h9]
        _ ≤ wsum d T0 := hle

/-- Prim's edge weight never exceeds the weight of any spanning connected
edge list. -/
theorem prim_weight_le (d : ℕ → ℕ → α) (n : ℕ) (hn : 1 ≤ n)
    (hsym : ∀ i j, d i j = d j i) (hnn : ∀ i j, 0 ≤ d i j)
    (T0 : List (ℕ × ℕ)) (hT0 : SpanConn n T0)
    {S : List ℕ} {E : List (ℕ × ℕ)} (hsteps : PrimSteps d n S E) :
    wsum d E ≤ wsum d T0 := by
  obtain ⟨R, -, hle⟩ := prim_exchange d n hn hsym T0 hT0 hsteps
  have hr := wsum_nonneg d hnn R
  calc wsum d E = wsum d E + 0 := (add_zero _).symm
    _ ≤ wsum d E + wsum d R := add_le_add_left hr _
    _ ≤ wsum d T0 := hle

end TSPSpec

namespace TSPSpec

variable {α : Type} [LinearOrderedAddCommGroup α]

/-- The consecutive-pair edges of a vertex sequence. -/
def pathEdges : List ℕ → List (ℕ × ℕ)
  | x :: y :: rest => (x, y) :: pathEdges (y :: rest)
  | _ => []

theorem wsum_pathEdges (d : ℕ → ℕ → α) :
    ∀ p : List ℕ, wsum d (pathEdges p) = path_length d p
  | [] => rfl
  | [_] => rfl
  | x :: y :: rest => by
    show wsum d ((x, y) :: pathEdges (y :: rest)) = d x y + path_length d (y :: rest)
    rw [wsum_cons, wsum_pathEdges d (y :: rest)]

/-- The head of a vertex sequence reaches every member along its edges. -/
theorem pathEdges_conn : ∀ (p : List ℕ) (x w : ℕ), p.head? = some x → w ∈ p →
    Conn (pathEdges p) x w
  | [], _, _, hh, _ => by cases hh
  | [x0], _, w, hh, hw => by
    obtain rfl : x0 = _ := Option.some_injective _ hh
    rw [List.mem_singleton] at hw
    subst hw
    exact .refl _
  | x0 :: y0 :: rest, _, w, hh, hw => by
    obtain rfl : x0 = _ := Option.some_injective _ hh
    rcases List.mem_cons.1 hw with rfl | hw'
    · exact .refl _
    · have hrec := pathEdges_conn (y0 :: rest) y0 w rfl hw'
      have hmono : ∀ c e, edgeIn (pathEdges (y0 :: rest)) c e →
          edgeIn (pathEdges (x0 :: y0 :: rest)) c e := by
        intro c e hce
        exact hce.imp (fun hm => List.mem_cons_of_mem _ hm)
          (fun hm => List.mem_cons_of_mem _ hm)
      exact .cons (Or.inl (List.mem_cons_self _ _)) (hrec.mono hmono)

/-- Edges of a duplicate-free in-range vertex sequence are valid. -/
theorem pathEdges_valid (n : ℕ) : ∀ p : List ℕ, p.Nodup →
    (∀ x ∈ p, x ∈ pyRange 1 (n + 1)) →
    ∀ e ∈ pathEdges p,
      e.1 ∈ pyRange 1 (n + 1) ∧ e.2 ∈ pyRange 1 (n + 1) ∧ e.1 ≠ e.2
  | [], _, _, e, he => absurd he (List.not_mem_nil e)
  | [_], _, _, e, he => absurd he (List.not_mem_nil e)
  | x :: y :: rest, hnd, hmem, e, he => by
    rcases List.mem_cons.1 he with rfl | he'
    · refine ⟨hmem x (List.mem_cons_self _ _),
        hmem y (List.mem_cons_of_mem _ (List.mem_cons_self _ _)), ?_⟩
      intro hmm
      have hx : x ∉ y :: rest := (List.nodup_cons.1 hnd).1
      refine hx ?_
      show x ∈ y :: rest
      rw [show x = y from hmm]
      exact List.mem_cons_self _ _
    · exact pathEdges_valid n (y :: rest) (List.nodup_cons.1 hnd).2
        (fun z hz => hmem z (List.mem_cons_of_mem _ hz)) e he'

/-- Appending a final stop can only lengthen a walk (nonnegativity). -/
theorem path_length_append_le (d : ℕ → ℕ → α) (hnn : ∀ i j, 0 ≤ d i j) (y : ℕ) :
    ∀ xs : List ℕ, path_length d xs ≤ path_length d (xs ++ [y])
  | [] => le_refl _
  | [x] => by
    show (0:α) ≤ d x y + 0
    rw [add_zero]
    exact hnn x y
  | x1 :: x2 :: rest => by
    show d x1 x2 + path_length d (x2 :: rest) ≤
      d x1 x2 + path_length d ((x2 :: rest) ++ [y])
    exact add_le_add_left (path_length_append_le d hnn y (x2 :: rest)) _

/-- The open tour path `1 :: l`, for `l` a permutation of the interior
labels, is a spanning connected edge list. -/
theorem tour_spanconn (n : ℕ) (hn : 1 ≤ n) (l : List ℕ)
    (hperm : l.Perm (interior n)) :
    SpanConn n (pathEdges (1 :: l)) := by
  have hint : ∀ x ∈ l, x ∈ pyRange 2 (n + 1) := by
    intro x hx
    exact hperm.mem_iff.1 hx
  have hint' : ∀ x ∈ l, x ∈ pyRange 1 (n + 1) := by
    intro x hx
    have h1 := hint x hx
    unfold pyRange at h1 ⊢
    rw [List.mem_range'] at h1 ⊢
    obtain ⟨i, hi, hv⟩ := h1
    exact ⟨i + 1, by omega, by omega⟩
  have h1r : (1 : ℕ) ∈ pyRange 1 (n + 1) := by
    unfold pyRange
    rw [List.mem_range']
    exact ⟨0, by omega, by omega⟩
  have h1l : (1 : ℕ) ∉ l := by
    intro hmm
    have h1 := hint 1 hmm
    unfold pyRange at h1
    rw [List.mem_range'] at h1
    omega
  have hndl : l.Nodup := by
    refine hperm.nodup_iff.2 ?_
    unfold interior pyRange
    exact List.nodup_range' 2 (n - 1)
  have hnd : (1 :: l).Nodup := List.nodup_cons.2 ⟨h1l, hndl⟩
  have hmem : ∀ x ∈ 1 :: l, x ∈ pyRange 1 (n + 1) := by
    intro x hx
    rcases List.mem_cons.1 hx with rfl | hx'
    · exact h1r
    · exact hint' x hx'
  refine ⟨?_, pathEdges_valid n (1 :: l) hnd hmem⟩
  intro w hw
  refine pathEdges_conn (1 :: l) 1 w rfl ?_
  unfold pyRange at hw
  rw [List.mem_range'] at hw
  obtain ⟨i, hi, hv⟩ := hw
  by_cases hi0 : i = 0
  · subst hi0
    have hw1 : w = 1 := by omega
    rw [hw1]
    exact List.mem_cons_self _ _
  · refine List.mem_cons_of_mem _ (hperm.mem_iff.2 ?_)
    unfold interior pyRange
    rw [List.mem_range']
    exact ⟨i - 1, by omega, by omega⟩

end TSPSpec

namespace TSPSpec

variable {α : Type} [LinearOrderedAddCommGroup α]

theorem oAbs_eq_abs (q : α) : oAbs q = |q| := by
  unfold oAbs
  by_cases h : q < 0
  · rw [if_pos h, abs_of_neg h]
  · rw [if_neg h, abs_of_nonneg (le_of_not_lt h)]

/-- Collinear Euclidean distances are symmetric. -/
theorem lineDist_symm (xs : List α) (i j : ℕ) :
    lineDist xs i j = lineDist xs j i := by
  unfold lineDist
  rw [oAbs_eq_abs, oAbs_eq_abs, abs_sub_comm]

/-- Collinear Euclidean distances vanish on the diagonal. -/
theorem lineDist_self (xs : List α) (i : ℕ) : lineDist xs i i = 0 := by
  unfold lineDist
  rw [oAbs_eq_abs, sub_self, abs_zero]

/-- Collinear Euclidean distances are nonnegative. -/
theorem lineDist_nonneg (xs : List α) (i j : ℕ) : 0 ≤ lineDist xs i j := by
  unfold lineDist
  rw [oAbs_eq_abs]
  exact abs_nonneg _

/-- Collinear Euclidean distances satisfy the triangle inequality. -/
theorem lineDist_tri (xs : List α) (i j k : ℕ) :
    lineDist xs i k ≤ lineDist xs i j + lineDist xs j k := by
  unfold lineDist
  rw [oAbs_eq_abs, oAbs_eq_abs, oAbs_eq_abs]
  exact abs_sub_le _ _ _

/-- Claim C8: for every metric instance — any distance function that is
symmetric, vanishes on the diagonal, is nonnegative and satisfies the
triangle inequality, which includes every Euclidean instance — the tour
length returned by `approx_tsp_tour` is at most 2 times the brute-force
minimum tour length, for every dimension `n ≥ 1` (in particular for all
`n ≤ 8`) and for the tie-breaking among equal-weight MST edges that the
heap order actually performs. -/
theorem claim_C8_mst_two_approx (n : ℕ) (d : ℕ → ℕ → α) (hn : 1 ≤ n)
    (hsym : ∀ i j, d i j = d j i) (hzero : ∀ i, d i i = 0)
    (hnn : ∀ i j, 0 ≤ d i j) (htri : ∀ i j k, d i k ≤ d i j + d j k)
    (opt : α) (hopt : bruteForce n d = some opt) :
    (approx_tsp_tour n d).1 ≤ opt + opt := by
  have hmem := listMin_mem hopt
  obtain ⟨l, hlp, hlv⟩ := List.mem_map.1 hmem
  have hperm : l.Perm (interior n) := List.mem_permutations'.1 hlp
  obtain ⟨S, E, hsteps, hSperm, happrox⟩ :=
    approx_le_twice_primweight d n hn hsym hzero htri
  have hT0 := tour_spanconn n hn l hperm
  have hwle : wsum d E ≤ wsum d (pathEdges (1 :: l)) :=
    prim_weight_le d n hn hsym hnn _ hT0 hsteps
  have hopt_eq : path_length d (1 :: (l ++ [1])) = opt := hlv
  have hplle : path_length d (1 :: l) ≤ opt := by
    rw [← hopt_eq]
    exact path_length_append_le d hnn 1 (1 :: l)
  have hEopt : wsum d E ≤ opt := by
    rw [wsum_pathEdges d (1 :: l)] at hwle
    exact hwle.trans hplle
  calc (approx_tsp_tour n d).1
      ≤ (E.map fun e => d e.1 e.2).sum + (E.map fun e => d e.1 e.2).sum :=
        happrox
    _ = wsum d E + wsum d E := rfl
    _ ≤ opt + opt := add_le_add hEopt hEopt

/-- Closed witness for C8: on the collinear instance (0, 1, 2) the brute
force optimum is 4 and the approximation is bounded by 8. -/
theorem claim_C8_witness :
    bruteForce 3 (lineDist ([0, 1, 2] : List ℤ)) = some 4 ∧
    (approx_tsp_tour 3 (lineDist ([0, 1, 2] : List ℤ))).1 ≤ 4 + 4 :=
  ⟨by decide,
    claim_C8_mst_two_approx 3 (lineDist ([0, 1, 2] : List ℤ)) (by decide)
      (lineDist_symm _) (lineDist_self _) (lineDist_nonneg _) (lineDist_tri _)
      4 (by decide)⟩

end TSPSpec
